import Mathlib

/-!
A shallow embedding of the `py-objectstorage` backend (files
`backend/s3_routes.py`, `backend/storage.py`, `backend/models.py`).

Modelling conventions:
* Bytes are `Nat`s (semantically `< 256`); byte strings are `List Nat`.
* `uuid.uuid4()` and `datetime.utcnow()` are modelled by a monotone counter
  stored in the `Store`: each row-creating operation stamps the current
  counter value as both the fresh `version_id` and the `last_modified`
  timestamp (uuid4 values are assumed fresh, and utcnow is monotone).
* The SQL table of `ObjectVersion` rows is a list in insertion (rowid)
  order; `session.exec(...).first()` with no `order_by` is `List.find?`,
  and `order_by(last_modified.desc()).first()` is the head of the list
  sorted by `last_modified` descending.
* The relational store is ACID (the spec treats it as such; the session
  provider `backend/database.py` is outside the embedded slice): staged
  row changes take effect only at `session.commit()`, so a request that
  raises before committing leaves the rows unchanged.  Physical file
  operations (`storage.py`) are immediate side effects, not transactional.
* MD5 (`hashlib.md5`) is implemented in full (RFC 1321) so that
  `calculate_etag` and the storage key-hash are the real functions.
-/

deriving instance DecidableEq for Except

/-! ## MD5 (hashlib.md5), used by storage.calculate_etag and storage.save_file -/

def MOD32 : Nat := 4294967296

def md5K : List Nat :=
  [0xd76aa478, 0xe8c7b756, 0x242070db, 0xc1bdceee,
   0xf57c0faf, 0x4787c62a, 0xa8304613, 0xfd469501,
   0x698098d8, 0x8b44f7af, 0xffff5bb1, 0x895cd7be,
   0x6b901122, 0xfd987193, 0xa679438e, 0x49b40821,
   0xf61e2562, 0xc040b340, 0x265e5a51, 0xe9b6c7aa,
   0xd62f105d, 0x02441453, 0xd8a1e681, 0xe7d3fbc8,
   0x21e1cde6, 0xc33707d6, 0xf4d50d87, 0x455a14ed,
   0xa9e3e905, 0xfcefa3f8, 0x676f02d9, 0x8d2a4c8a,
   0xfffa3942, 0x8771f681, 0x6d9d6122, 0xfde5380c,
   0xa4beea44, 0x4bdecfa9, 0xf6bb4b60, 0xbebfbc70,
   0x289b7ec6, 0xeaa127fa, 0xd4ef3085, 0x04881d05,
   0xd9d4d039, 0xe6db99e5, 0x1fa27cf8, 0xc4ac5665,
   0xf4292244, 0x432aff97, 0xab9423a7, 0xfc93a039,
   0x655b59c3, 0x8f0ccc92, 0xffeff47d, 0x85845dd1,
   0x6fa87e4f, 0xfe2ce6e0, 0xa3014314, 0x4e0811a1,
   0xf7537e82, 0xbd3af235, 0x2ad7d2bb, 0xeb86d391]

def md5S : List Nat :=
  [7, 12, 17, 22, 7, 12, 17, 22, 7, 12, 17, 22, 7, 12, 17, 22,
   5, 9, 14, 20, 5, 9, 14, 20, 5, 9, 14, 20, 5, 9, 14, 20,
   4, 11, 16, 23, 4, 11, 16, 23, 4, 11, 16, 23, 4, 11, 16, 23,
   6, 10, 15, 21, 6, 10, 15, 21, 6, 10, 15, 21, 6, 10, 15, 21]

def rotl32 (x s : Nat) : Nat := ((x <<< s) ||| (x >>> (32 - s))) % MOD32

def md5F (i b c d : Nat) : Nat :=
  if i < 16 then (b &&& c) ||| ((b ^^^ 0xffffffff) &&& d)
  else if i < 32 then (d &&& b) ||| ((d ^^^ 0xffffffff) &&& c)
  else if i < 48 then b ^^^ c ^^^ d
  else c ^^^ (b ||| (d ^^^ 0xffffffff))

def md5G (i : Nat) : Nat :=
  if i < 16 then i
  else if i < 32 then (5 * i + 1) % 16
  else if i < 48 then (3 * i + 5) % 16
  else (7 * i) % 16

def toWordsLE : List Nat → List Nat
  | b0 :: b1 :: b2 :: b3 :: rest =>
      (b0 + 256 * b1 + 65536 * b2 + 16777216 * b3) :: toWordsLE rest
  | _ => []

def md5Step (m : List Nat) (st : Nat × Nat × Nat × Nat) (i : Nat) : Nat × Nat × Nat × Nat :=
  let (a, b, c, d) := st
  let f := (md5F i b c d + a + md5K.getD i 0 + m.getD (md5G i) 0) % MOD32
  (d, (b + rotl32 f (md5S.getD i 0)) % MOD32, b, c)

def md5Chunk (st : Nat × Nat × Nat × Nat) (chunk : List Nat) : Nat × Nat × Nat × Nat :=
  let m := toWordsLE chunk
  let r := (List.range 64).foldl (md5Step m) st
  ((st.1 + r.1) % MOD32, (st.2.1 + r.2.1) % MOD32,
   (st.2.2.1 + r.2.2.1) % MOD32, (st.2.2.2 + r.2.2.2) % MOD32)

def chunks64 (l : List Nat) : List (List Nat) :=
  if h : l = [] then [] else l.take 64 :: chunks64 (l.drop 64)
termination_by l.length
decreasing_by
  simp only [List.length_drop]
  have : 0 < l.length := List.length_pos.mpr h
  omega

def md5Padding (len : Nat) : List Nat :=
  let lenB := (List.range 8).map (fun i => ((8 * len) % 18446744073709551616) >>> (8 * i) % 256)
  0x80 :: List.replicate ((119 - len % 64) % 64) 0 ++ lenB

def wordLE (w : Nat) : List Nat := [w % 256, w / 256 % 256, w / 65536 % 256, w / 16777216 % 256]

def md5Bytes (msg : List Nat) : List Nat :=
  let padded := msg ++ md5Padding msg.length
  let r := (chunks64 padded).foldl md5Chunk (0x67452301, 0xefcdab89, 0x98badcfe, 0x10325476)
  wordLE r.1 ++ wordLE r.2.1 ++ wordLE r.2.2.1 ++ wordLE r.2.2.2

def hexChar (n : Nat) : Char := "0123456789abcdef".toList.getD n '0'

def byteHex (b : Nat) : List Char := [hexChar (b / 16 % 16), hexChar (b % 16)]

def hexString (bs : List Nat) : String := String.mk (bs.flatMap byteHex)

def strBytes (s : String) : List Nat := s.toUTF8.toList.map (fun b => b.toNat)

/-- storage.calculate_etag: the quoted md5 hexdigest of the full content
(the 4096-byte chunked reading loop feeds the whole stream to one md5). -/
def calculate_etag (content : List Nat) : String :=
  "\"" ++ hexString (md5Bytes content) ++ "\""

/-! ## Data model (backend/models.py) and blob store (backend/storage.py) -/

/-- A physical storage path `{bucket}/{md5(key)}/{version_id}` produced by
storage.save_file, kept as its three `os.path.join` components. -/
structure Locator where
  bucket : String
  keyHash : String
  filename : Nat
deriving DecidableEq, Repr

/-- storage.save_file's path derivation: `data/{bucket}/{md5(key)}/{version_id}`. -/
def save_file_loc (bucket key : String) (version_id : Nat) : Locator :=
  ⟨bucket, hexString (md5Bytes (strBytes key)), version_id⟩

/-- The physical file tree under STORAGE_ROOT: an association of paths to contents. -/
abbrev BlobStore := List (Locator × List Nat)

def lookupBlob (bs : BlobStore) (l : Locator) : Option (List Nat) :=
  (bs.find? (fun p => decide (p.1 = l))).map Prod.snd

/-- storage.delete_physical_file: removes the file if present (no-op otherwise). -/
def removeBlob (bs : BlobStore) (l : Locator) : BlobStore :=
  bs.filter (fun p => decide (¬ p.1 = l))

/-- storage.save_file's write: `open(path, "wb")` truncates, so it overwrites. -/
def writeBlob (bs : BlobStore) (l : Locator) (c : List Nat) : BlobStore :=
  (l, c) :: removeBlob bs l

/-- models.ObjectVersion.  `id` is the surrogate primary key; `version_id`
(a uuid4 in the code) and `last_modified` (a utcnow timestamp) are `Nat`s
stamped from the store's counter. -/
structure ObjectVersion where
  id : Nat
  bucket_name : String
  key : String
  version_id : Nat
  is_latest : Bool
  is_delete_marker : Bool
  size : Nat
  etag : String
  last_modified : Nat
  content_type : String
  storage_path : Option Locator
deriving DecidableEq, Repr

/-- The whole server state: bucket table, ObjectVersion table in rowid
order, physical files, and the freshness counter standing in for uuid4 /
utcnow. -/
structure Store where
  buckets : List String
  rows : List ObjectVersion
  blobs : BlobStore
  counter : Nat
deriving DecidableEq, Repr

inductive ApiError where
  | noSuchBucket
  | noSuchKey
  | internalError
  | versionNotFound
  | bucketExists
deriving DecidableEq, Repr

/-- What a successful GET carries: body plus the metadata headers. -/
structure GetResult where
  content : List Nat
  version_id : Nat
  etag : String
  content_type : String
  size : Nat
deriving DecidableEq, Repr

/-! ## Query helpers (the SQL predicates of s3_routes.py) -/

def inChainB (b k : String) (r : ObjectVersion) : Bool :=
  decide (r.bucket_name = b ∧ r.key = k)

/-- The chain of (b, k): all ObjectVersion rows with that bucket and key. -/
def chainOf (b k : String) (rows : List ObjectVersion) : List ObjectVersion :=
  rows.filter (inChainB b k)

def latestQ (b k : String) (r : ObjectVersion) : Bool :=
  inChainB b k r && r.is_latest

def versionQ (b k : String) (vid : Nat) (r : ObjectVersion) : Bool :=
  decide (r.bucket_name = b ∧ r.key = k ∧ r.version_id = vid)

def notVersionQ (b k : String) (vid : Nat) (r : ObjectVersion) : Bool :=
  decide (r.bucket_name = b ∧ r.key = k ∧ ¬ r.version_id = vid)

def latestCount (l : List ObjectVersion) : Nat :=
  l.countP (fun r => r.is_latest)

/-- Committing `row.is_latest = False; session.add(row)` for the row with
primary key `i`. -/
def demoteById (i : Nat) (rows : List ObjectVersion) : List ObjectVersion :=
  rows.map (fun r => if r.id = i then { r with is_latest := false } else r)

/-- Committing `row.is_latest = True; session.add(row)` for the row with
primary key `i`. -/
def promoteById (i : Nat) (rows : List ObjectVersion) : List ObjectVersion :=
  rows.map (fun r => if r.id = i then { r with is_latest := true } else r)

/-- `order_by(ObjectVersion.last_modified.desc())`. -/
def lmGE (a b : ObjectVersion) : Prop := b.last_modified ≤ a.last_modified

instance : DecidableRel lmGE := fun _ _ => Nat.decLe _ _

def sortLMDesc (l : List ObjectVersion) : List ObjectVersion :=
  List.insertionSort lmGE l

/-- The shared demote-the-old-latest step of put_object and the
delete-marker branch of delete_object: find the first row of the chain
with `is_latest == True` and stage `is_latest = False` on it. -/
def demoteOldLatest (b k : String) (rows : List ObjectVersion) : List ObjectVersion :=
  match rows.find? (latestQ b k) with
  | some old => demoteById old.id rows
  | none => rows

/-! ## Route handlers (backend/s3_routes.py) -/

/-- create_bucket (PUT /{bucket_name}). -/
def create_bucket (b : String) (s : Store) : Except ApiError Unit × Store :=
  if b ∈ s.buckets then (.error .bucketExists, s)
  else (.ok (), { s with buckets := s.buckets ++ [b] })

/-- put_object (PUT /{bucket_name}/{key}).  Returns the
`(x-amz-version-id, ETag)` headers on success. -/
def put_object (b k : String) (content : List Nat) (ctype : String) (s : Store) :
    Except ApiError (Nat × String) × Store :=
  if b ∈ s.buckets then
    let etag := calculate_etag content
    let vid := s.counter
    let loc := save_file_loc b k vid
    let newRow : ObjectVersion :=
      { id := s.counter, bucket_name := b, key := k, version_id := vid,
        is_latest := true, is_delete_marker := false, size := content.length,
        etag := etag, last_modified := s.counter, content_type := ctype,
        storage_path := some loc }
    (.ok (vid, etag),
     { buckets := s.buckets,
       rows := demoteOldLatest b k s.rows ++ [newRow],
       blobs := writeBlob s.blobs loc content,
       counter := s.counter + 1 })
  else (.error .noSuchBucket, s)

/-- The row resolution of get_object: filter by bucket and key, then by
`version_id == versionId` when given, else by `is_latest == True`. -/
def getQ (b k : String) (v : Option Nat) (r : ObjectVersion) : Bool :=
  inChainB b k r &&
    (match v with
     | some vid => decide (r.version_id = vid)
     | none => r.is_latest)

/-- get_object (GET /{bucket_name}/{key}).  Pure: it performs no mutation. -/
def get_object (b k : String) (v : Option Nat) (s : Store) : Except ApiError GetResult :=
  match s.rows.find? (getQ b k v) with
  | none => .error .noSuchKey
  | some obj =>
    if obj.is_delete_marker then .error .noSuchKey
    else
      match obj.storage_path with
      | none => .error .internalError
      | some loc =>
        match lookupBlob s.blobs loc with
        | none => .error .internalError
        | some bytes => .ok ⟨bytes, obj.version_id, obj.etag, obj.content_type, obj.size⟩

/-- delete_object (DELETE /{bucket_name}/{key}).  Returns the
`x-amz-version-id` header (present only on the delete-marker branch). -/
def delete_object (b k : String) (v : Option Nat) (s : Store) :
    Except ApiError (Option Nat) × Store :=
  match v with
  | some vid =>
    match s.rows.find? (versionQ b k vid) with
    | none => (.ok none, s)
    | some obj =>
      let rows1 :=
        if obj.is_latest then
          match (sortLMDesc (s.rows.filter (notVersionQ b k vid))).head? with
          | some nxt => promoteById nxt.id s.rows
          | none => s.rows
        else s.rows
      let blobs1 :=
        match obj.storage_path with
        | some loc => removeBlob s.blobs loc
        | none => s.blobs
      (.ok none,
       { s with rows := rows1.filter (fun r => decide (¬ r.id = obj.id)), blobs := blobs1 })
  | none =>
    if b ∈ s.buckets then
      let vid := s.counter
      let marker : ObjectVersion :=
        { id := s.counter, bucket_name := b, key := k, version_id := vid,
          is_latest := true, is_delete_marker := true, size := 0, etag := "",
          last_modified := s.counter, content_type := "application/octet-stream",
          storage_path := none }
      (.ok (some vid),
       { s with rows := demoteOldLatest b k s.rows ++ [marker], counter := s.counter + 1 })
    else (.error .noSuchBucket, s)

/-- The effects staged by ui_rollback's scan loop over the chain sorted by
`last_modified` descending: rows destroyed (with the physical files it
deletes on the spot), the target rows staged latest, the post-target
latest rows staged non-latest, and whether the target was seen. -/
structure RbScan where
  destroyedIds : List Nat
  destroyedLocs : List Locator
  promotedIds : List Nat
  demotedIds : List Nat
  found : Bool
deriving DecidableEq, Repr

def rbScan (vid : Nat) : List ObjectVersion → Bool → RbScan
  | [], found => ⟨[], [], [], [], found⟩
  | r :: rest, found =>
    if r.version_id = vid then
      let t := rbScan vid rest true
      { t with promotedIds := r.id :: t.promotedIds }
    else if found then
      let t := rbScan vid rest true
      if r.is_latest then { t with demotedIds := r.id :: t.demotedIds } else t
    else
      let t := rbScan vid rest false
      { t with
        destroyedIds := r.id :: t.destroyedIds,
        destroyedLocs :=
          match r.storage_path with
          | some l => l :: t.destroyedLocs
          | none => t.destroyedLocs }

/-- `session.commit()` of the staged row effects of the rollback scan
(deletes win over updates, as in the session). -/
def rbCommit (t : RbScan) (rows : List ObjectVersion) : List ObjectVersion :=
  rows.filterMap (fun r =>
    if r.id ∈ t.destroyedIds then none
    else if r.id ∈ t.promotedIds then some { r with is_latest := true }
    else if r.id ∈ t.demotedIds then some { r with is_latest := false }
    else some r)

/-- ui_rollback (POST /api/ui/{bucket_name}/rollback).  The physical file
deletions happen during the scan, before the target-found check, so they
persist even on the 404 path; the staged row changes are committed only
when the target was found (the session is discarded uncommitted when the
handler raises). -/
def ui_rollback (b k : String) (vid : Nat) (s : Store) : Except ApiError Unit × Store :=
  let t := rbScan vid (sortLMDesc (chainOf b k s.rows)) false
  let blobs1 := t.destroyedLocs.foldl removeBlob s.blobs
  if t.found then
    (.ok (), { s with rows := rbCommit t s.rows, blobs := blobs1 })
  else
    (.error .versionNotFound, { s with blobs := blobs1 })

/-! ## Operation sequences (for the reachability invariant) -/

inductive Op where
  | createBucket (b : String)
  | put (b k : String) (content : List Nat) (ctype : String)
  | deleteVersion (b k : String) (vid : Nat)
  | deleteMarker (b k : String)
  | rollback (b k : String) (vid : Nat)
deriving DecidableEq, Repr

def applyOp (s : Store) (o : Op) : Store :=
  match o with
  | .createBucket b => (create_bucket b s).2
  | .put b k c ct => (put_object b k c ct s).2
  | .deleteVersion b k vid => (delete_object b k (some vid) s).2
  | .deleteMarker b k => (delete_object b k none s).2
  | .rollback b k vid => (ui_rollback b k vid s).2

def initStore : Store := { buckets := [], rows := [], blobs := [], counter := 0 }

def runOps (ops : List Op) : Store := ops.foldl applyOp initStore

/-! ## Invariants -/

/-- Every stored row's surrogate id and version_id were stamped from an
earlier counter value (uuid4 freshness / rowid monotonicity). -/
def FreshRows (counter : Nat) (rows : List ObjectVersion) : Prop :=
  ∀ r ∈ rows, r.id < counter ∧ r.version_id < counter

/-- Pairwise distinct primary keys and version ids (I3). -/
def DistinctRows (rows : List ObjectVersion) : Prop :=
  rows.Pairwise (fun a b => a.id ≠ b.id ∧ a.version_id ≠ b.version_id)

instance (rows : List ObjectVersion) : Decidable (DistinctRows rows) := by
  unfold DistinctRows; infer_instance

/-- I1: every non-empty chain has exactly one row with `is_latest = true`. -/
def ChainInv (rows : List ObjectVersion) : Prop :=
  ∀ b k, chainOf b k rows = [] ∨ latestCount (chainOf b k rows) = 1

/-- Timestamps were likewise stamped from earlier counter values. -/
def FreshLM (counter : Nat) (rows : List ObjectVersion) : Prop :=
  ∀ r ∈ rows, r.last_modified < counter

/-- Pairwise distinct timestamps (utcnow ties are not modelled). -/
def DistinctLM (rows : List ObjectVersion) : Prop :=
  rows.Pairwise (fun a b => a.last_modified ≠ b.last_modified)

instance (rows : List ObjectVersion) : Decidable (DistinctLM rows) := by
  unfold DistinctLM; infer_instance

def StoreInv (s : Store) : Prop :=
  FreshRows s.counter s.rows ∧ FreshLM s.counter s.rows ∧
    DistinctRows s.rows ∧ DistinctLM s.rows ∧ ChainInv s.rows

/-! ## General lemmas about the query helpers -/

theorem mem_chainOf {b k : String} {r : ObjectVersion} {rows : List ObjectVersion} :
    r ∈ chainOf b k rows ↔ r ∈ rows ∧ r.bucket_name = b ∧ r.key = k := by
  simp [chainOf, List.mem_filter, inChainB]

theorem chainOf_append (b k : String) (l1 l2 : List ObjectVersion) :
    chainOf b k (l1 ++ l2) = chainOf b k l1 ++ chainOf b k l2 := by
  simp [chainOf]

theorem chainOf_map (b k : String) (f : ObjectVersion → ObjectVersion)
    (hf : ∀ r, (f r).bucket_name = r.bucket_name ∧ (f r).key = r.key)
    (rows : List ObjectVersion) :
    chainOf b k (rows.map f) = (chainOf b k rows).map f := by
  unfold chainOf
  rw [List.filter_map]
  congr 1
  apply List.filter_congr
  intro r _
  simp only [Function.comp_apply, inChainB, (hf r).1, (hf r).2]

theorem chainOf_filter (b k : String) (p : ObjectVersion → Bool) (rows : List ObjectVersion) :
    chainOf b k (rows.filter p) = (chainOf b k rows).filter p := by
  unfold chainOf
  rw [List.filter_filter, List.filter_filter]
  apply List.filter_congr
  intro r _
  exact Bool.and_comm _ _

theorem chainOf_filterMap (b k : String) (f : ObjectVersion → Option ObjectVersion)
    (hf : ∀ r r', f r = some r' → r'.bucket_name = r.bucket_name ∧ r'.key = r.key)
    (rows : List ObjectVersion) :
    chainOf b k (rows.filterMap f) = (chainOf b k rows).filterMap f := by
  induction rows with
  | nil => rfl
  | cons a t ih =>
    unfold chainOf at *
    rw [List.filterMap_cons]
    cases hfa : f a with
    | none =>
      rw [List.filter_cons]
      by_cases hm : inChainB b k a
      · simp only [hm, if_pos, List.filterMap_cons, hfa, ih]
      · simp only [hm]
        simp only [Bool.false_eq_true, if_neg, ih, reduceIte]
    | some a' =>
      have hbk := hf a a' hfa
      rw [List.filter_cons, List.filter_cons]
      have : inChainB b k a' = inChainB b k a := by
        simp only [inChainB, hbk.1, hbk.2]
      by_cases hm : inChainB b k a
      · simp only [hm, this, if_pos, List.filterMap_cons, hfa, ih]
      · simp only [hm, this]
        simp only [Bool.false_eq_true, if_neg, ih, reduceIte]

theorem distinct_id_inj {rows : List ObjectVersion} (h : DistinctRows rows)
    {a b : ObjectVersion} (ha : a ∈ rows) (hb : b ∈ rows) (hid : a.id = b.id) : a = b := by
  by_contra hne
  exact (h.forall (fun {x y} hxy => ⟨hxy.1.symm, hxy.2.symm⟩) ha hb hne).1 hid

theorem distinct_vid_inj {rows : List ObjectVersion} (h : DistinctRows rows)
    {a b : ObjectVersion} (ha : a ∈ rows) (hb : b ∈ rows) (hid : a.version_id = b.version_id) :
    a = b := by
  by_contra hne
  exact (h.forall (fun {x y} hxy => ⟨hxy.1.symm, hxy.2.symm⟩) ha hb hne).2 hid

theorem DistinctRows.nodup {rows : List ObjectVersion} (h : DistinctRows rows) : rows.Nodup :=
  h.imp (fun hab => by intro he; exact hab.1 (congrArg ObjectVersion.id he))

theorem DistinctRows.sublist {rows rows' : List ObjectVersion}
    (hs : rows'.Sublist rows) (h : DistinctRows rows) : DistinctRows rows' :=
  List.Pairwise.sublist hs h

theorem distinct_chainOf {b k : String} {rows : List ObjectVersion}
    (h : DistinctRows rows) : DistinctRows (chainOf b k rows) :=
  DistinctRows.sublist (List.filter_sublist rows) h

theorem two_le_countP {α : Type} {p : α → Bool} {l : List α} {a b : α}
    (ha : a ∈ l) (hb : b ∈ l) (hne : a ≠ b) (hpa : p a = true) (hpb : p b = true) :
    2 ≤ l.countP p := by
  induction l with
  | nil => cases ha
  | cons c t ih =>
    rw [List.countP_cons]
    rcases List.mem_cons.mp ha with rfl | hat
    · have hbt : b ∈ t := by
        rcases List.mem_cons.mp hb with rfl | h
        · exact absurd rfl hne
        · exact h
      have : 0 < t.countP p := List.countP_pos_iff.mpr ⟨b, hbt, hpb⟩
      simp only [hpa, if_pos]
      omega
    · rcases List.mem_cons.mp hb with rfl | hbt
      · have : 0 < t.countP p := List.countP_pos_iff.mpr ⟨a, hat, hpa⟩
        simp only [hpb, if_pos]
        omega
      · have := ih hat hbt
        omega

theorem countP_eq_one_of {α : Type} {p : α → Bool} {l : List α} {a : α}
    (hnd : l.Nodup) (ha : a ∈ l) (hp : p a = true)
    (hu : ∀ x ∈ l, p x = true → x = a) : l.countP p = 1 := by
  induction l with
  | nil => cases ha
  | cons c t ih =>
    rw [List.countP_cons]
    have hndt : t.Nodup := (List.nodup_cons.mp hnd).2
    have hcn : c ∉ t := (List.nodup_cons.mp hnd).1
    rcases List.mem_cons.mp ha with rfl | hat
    · have h0 : t.countP p = 0 := by
        rw [List.countP_eq_zero]
        intro x hx hpx
        exact hcn ((hu x (List.mem_cons_of_mem _ hx) hpx) ▸ hx)
      rw [if_pos hp, h0]
    · have hpc : ¬ p c = true := by
        intro hpc
        exact hcn ((hu c (List.mem_cons_self _ _) hpc).symm ▸ hat)
      rw [if_neg hpc, ih hndt hat (fun x hx hpx => hu x (List.mem_cons_of_mem _ hx) hpx)]

/-- If a chain has exactly one latest row, two latest members coincide. -/
theorem latest_unique {b k : String} {rows : List ObjectVersion}
    (h1 : latestCount (chainOf b k rows) ≤ 1)
    {r r' : ObjectVersion} (hr : r ∈ chainOf b k rows) (hr' : r' ∈ chainOf b k rows)
    (hl : r.is_latest = true) (hl' : r'.is_latest = true) : r = r' := by
  by_contra hne
  have h2 := two_le_countP (p := fun r => r.is_latest) hr hr' hne hl hl'
  unfold latestCount at h1
  omega

theorem latestQ_iff {b k : String} {r : ObjectVersion} :
    latestQ b k r = true ↔ r.bucket_name = b ∧ r.key = k ∧ r.is_latest = true := by
  simp [latestQ, inChainB, and_assoc]

theorem versionQ_iff {b k : String} {vid : Nat} {r : ObjectVersion} :
    versionQ b k vid r = true ↔ r.bucket_name = b ∧ r.key = k ∧ r.version_id = vid := by
  simp [versionQ]

theorem notVersionQ_iff {b k : String} {vid : Nat} {r : ObjectVersion} :
    notVersionQ b k vid r = true ↔ r.bucket_name = b ∧ r.key = k ∧ ¬ r.version_id = vid := by
  simp [notVersionQ]

@[simp] theorem ite_set_latest_id (c : Prop) [Decidable c] (v : Bool) (r : ObjectVersion) :
    (if c then { r with is_latest := v } else r).id = r.id := by split <;> rfl

@[simp] theorem ite_set_latest_vid (c : Prop) [Decidable c] (v : Bool) (r : ObjectVersion) :
    (if c then { r with is_latest := v } else r).version_id = r.version_id := by split <;> rfl

@[simp] theorem ite_set_latest_bucket (c : Prop) [Decidable c] (v : Bool) (r : ObjectVersion) :
    (if c then { r with is_latest := v } else r).bucket_name = r.bucket_name := by split <;> rfl

@[simp] theorem ite_set_latest_key (c : Prop) [Decidable c] (v : Bool) (r : ObjectVersion) :
    (if c then { r with is_latest := v } else r).key = r.key := by split <;> rfl

@[simp] theorem ite_set_latest_lm (c : Prop) [Decidable c] (v : Bool) (r : ObjectVersion) :
    (if c then { r with is_latest := v } else r).last_modified = r.last_modified := by
  split <;> rfl

@[simp] theorem ite_set_latest_marker (c : Prop) [Decidable c] (v : Bool) (r : ObjectVersion) :
    (if c then { r with is_latest := v } else r).is_delete_marker = r.is_delete_marker := by
  split <;> rfl

@[simp] theorem ite_set_latest_path (c : Prop) [Decidable c] (v : Bool) (r : ObjectVersion) :
    (if c then { r with is_latest := v } else r).storage_path = r.storage_path := by
  split <;> rfl

theorem set_latest_eq_self {r : ObjectVersion} (h : r.is_latest = false) :
    { r with is_latest := false } = r := by
  cases r
  simp_all

theorem chainOf_demoteById (b k : String) (i : Nat) (rows : List ObjectVersion) :
    chainOf b k (demoteById i rows) = demoteById i (chainOf b k rows) := by
  unfold demoteById
  exact chainOf_map b k _ (fun r => by constructor <;> simp) rows

theorem chainOf_promoteById (b k : String) (i : Nat) (rows : List ObjectVersion) :
    chainOf b k (promoteById i rows) = promoteById i (chainOf b k rows) := by
  unfold promoteById
  exact chainOf_map b k _ (fun r => by constructor <;> simp) rows

theorem distinct_map_setIf (rows : List ObjectVersion) (f : ObjectVersion → ObjectVersion)
    (hf : ∀ r, (f r).id = r.id ∧ (f r).version_id = r.version_id)
    (h : DistinctRows rows) : DistinctRows (rows.map f) := by
  unfold DistinctRows
  rw [List.pairwise_map]
  refine h.imp ?_
  intro a b hab
  constructor
  · rw [(hf a).1, (hf b).1]; exact hab.1
  · rw [(hf a).2, (hf b).2]; exact hab.2

theorem distinct_demoteById (i : Nat) (rows : List ObjectVersion)
    (h : DistinctRows rows) : DistinctRows (demoteById i rows) :=
  distinct_map_setIf rows _ (fun r => by constructor <;> simp) h

theorem distinct_promoteById (i : Nat) (rows : List ObjectVersion)
    (h : DistinctRows rows) : DistinctRows (promoteById i rows) :=
  distinct_map_setIf rows _ (fun r => by constructor <;> simp) h

theorem chainOf_demoteOldLatest_other (b k b' k' : String) (rows : List ObjectVersion)
    (hne : ¬(b' = b ∧ k' = k)) (hdis : DistinctRows rows) :
    chainOf b' k' (demoteOldLatest b k rows) = chainOf b' k' rows := by
  unfold demoteOldLatest
  cases hf : rows.find? (latestQ b k) with
  | none => rfl
  | some old =>
    have hmem := List.mem_of_find?_eq_some hf
    have hq := latestQ_iff.mp (List.find?_some hf)
    rw [chainOf_demoteById]
    unfold demoteById
    have hcong : ∀ r ∈ chainOf b' k' rows,
        (if r.id = old.id then { r with is_latest := false } else r) = id r := by
      intro r hr
      have hrc := mem_chainOf.mp hr
      rw [if_neg, id]
      intro hid
      have heq : r = old := distinct_id_inj hdis hrc.1 hmem hid
      exact hne ⟨hrc.2.1 ▸ heq ▸ hq.1, hrc.2.2 ▸ heq ▸ hq.2.1⟩
    rw [List.map_congr_left hcong, List.map_id]

theorem latestCount_demoteOldLatest (b k : String) (rows : List ObjectVersion)
    (hdis : DistinctRows rows) (hle : latestCount (chainOf b k rows) ≤ 1) :
    latestCount (chainOf b k (demoteOldLatest b k rows)) = 0 := by
  unfold demoteOldLatest
  cases hf : rows.find? (latestQ b k) with
  | none =>
    have hno := List.find?_eq_none.mp hf
    unfold latestCount
    rw [List.countP_eq_zero]
    intro r hr
    have h1 := mem_chainOf.mp hr
    have h2 := hno r h1.1
    rw [latestQ_iff] at h2
    push_neg at h2
    simpa using h2 h1.2.1 h1.2.2
  | some old =>
    have hmem := List.mem_of_find?_eq_some hf
    have hq := latestQ_iff.mp (List.find?_some hf)
    have holdc : old ∈ chainOf b k rows := mem_chainOf.mpr ⟨hmem, hq.1, hq.2.1⟩
    rw [chainOf_demoteById]
    unfold latestCount demoteById
    rw [List.countP_map, List.countP_eq_zero]
    intro r hr
    simp only [Function.comp_apply]
    by_cases hid : r.id = old.id
    · rw [if_pos hid]
      exact Bool.false_ne_true
    · rw [if_neg hid]
      intro hlat
      exact hid (congrArg ObjectVersion.id (latest_unique hle hr holdc hlat hq.2.2))

theorem find?_append_of_none {α : Type} {p : α → Bool} {l1 l2 : List α}
    (h : ∀ x ∈ l1, ¬ p x = true) : (l1 ++ l2).find? p = l2.find? p := by
  rw [List.find?_append]
  have : l1.find? p = none := List.find?_eq_none.mpr h
  rw [this, Option.none_or]

/-- find? returns the unique satisfying element. -/
theorem find?_unique {α : Type} {p : α → Bool} {l : List α} {a : α}
    (ha : a ∈ l) (hp : p a = true) (hu : ∀ x ∈ l, p x = true → x = a) :
    l.find? p = some a := by
  induction l with
  | nil => cases ha
  | cons c t ih =>
    rcases List.mem_cons.mp ha with rfl | hat
    · rw [List.find?_cons_of_pos _ hp]
    · by_cases hpc : p c = true
      · rw [hu c (List.mem_cons_self _ _) hpc]
        rw [List.find?_cons_of_pos _ hp]
      · rw [List.find?_cons_of_neg _ hpc]
        exact ih hat (fun x hx hpx => hu x (List.mem_cons_of_mem _ hx) hpx)

/-! ## Claim C8: idempotent targeted delete -/

/-- C8: for every bucket, key and version_id such that no row with that
(bucket, key, version_id) exists, Delete(bucket, key, version_id) succeeds
(204) and leaves the store unchanged: no row is added, removed or
modified and no blob is deleted. -/
theorem C8_idempotent_delete (b k : String) (vid : Nat) (s : Store)
    (h : ∀ r ∈ s.rows, ¬(r.bucket_name = b ∧ r.key = k ∧ r.version_id = vid)) :
    delete_object b k (some vid) s = (.ok none, s) := by
  have hnone : s.rows.find? (versionQ b k vid) = none := by
    rw [List.find?_eq_none]
    intro r hr
    simp only [versionQ_iff]
    exact fun hc => h r hr hc
  simp only [delete_object, hnone]

def sC8 : Store :=
  { buckets := ["b"],
    rows := [{ id := 0, bucket_name := "b", key := "k", version_id := 0, is_latest := true,
               is_delete_marker := false, size := 1, etag := "\"aa\"", last_modified := 0,
               content_type := "t", storage_path := some ⟨"b", "h", 0⟩ }],
    blobs := [(⟨"b", "h", 0⟩, [65])], counter := 1 }

theorem C8_idempotent_delete_witness :
    delete_object "b" "k" (some 5) sC8 = (.ok none, sC8) :=
  C8_idempotent_delete "b" "k" 5 sC8 (by decide)

/-! ## Claim C10: tombstoning a never-written key -/

/-- C10: for every existing bucket and key with an empty chain,
Delete(bucket, key, no version) succeeds and creates a chain whose single
row is a current tombstone with no locator. -/
theorem C10_tombstone_unwritten_key (b k : String) (s : Store)
    (hb : b ∈ s.buckets) (hempty : chainOf b k s.rows = []) :
    (delete_object b k none s).1 = .ok (some s.counter) ∧
    chainOf b k (delete_object b k none s).2.rows =
      [{ id := s.counter, bucket_name := b, key := k, version_id := s.counter,
         is_latest := true, is_delete_marker := true, size := 0, etag := "",
         last_modified := s.counter, content_type := "application/octet-stream",
         storage_path := none }] := by
  have hfind : s.rows.find? (latestQ b k) = none := by
    rw [List.find?_eq_none]
    intro r hr hq
    have hq' := latestQ_iff.mp hq
    have hm : r ∈ chainOf b k s.rows := mem_chainOf.mpr ⟨hr, hq'.1, hq'.2.1⟩
    rw [hempty] at hm
    cases hm
  simp only [delete_object, if_pos hb]
  refine ⟨by trivial, ?_⟩
  rw [chainOf_append]
  unfold demoteOldLatest
  rw [hfind, hempty]
  simp [chainOf, inChainB]

def sC10 : Store := { buckets := ["b"], rows := [], blobs := [], counter := 0 }

theorem C10_tombstone_unwritten_key_witness :
    (delete_object "b" "k" none sC10).1 = .ok (some 0) ∧
    chainOf "b" "k" (delete_object "b" "k" none sC10).2.rows =
      [{ id := 0, bucket_name := "b", key := "k", version_id := 0,
         is_latest := true, is_delete_marker := true, size := 0, etag := "",
         last_modified := 0, content_type := "application/octet-stream",
         storage_path := none }] :=
  C10_tombstone_unwritten_key "b" "k" sC10 (by decide) (by decide)

/-! ## Claim C1: rollback to an unknown version is NOT mutation-free -/

def locC1 : Locator := ⟨"b", "h", 0⟩

def rowC1 : ObjectVersion :=
  { id := 0, bucket_name := "b", key := "k", version_id := 0, is_latest := true,
    is_delete_marker := false, size := 1, etag := "\"e\"", last_modified := 0,
    content_type := "t", storage_path := some locC1 }

def sC1 : Store := { buckets := ["b"], rows := [rowC1], blobs := [(locC1, [65])], counter := 1 }

/-- C1 (refuted by the code): rolling back to a version_id absent from the
chain does fail with VersionNotFoundInHistory and leaves the metadata rows
unchanged (the session is never committed), but the physical blob of every
row of the chain has already been deleted by the scan loop before the
target-found check fires, so the state is mutated. -/
theorem C1_rollback_unknown_target_mutates :
    (ui_rollback "b" "k" 99 sC1).1 = .error .versionNotFound ∧
    (ui_rollback "b" "k" 99 sC1).2.rows = sC1.rows ∧
    (ui_rollback "b" "k" 99 sC1).2.blobs = [] ∧
    lookupBlob sC1.blobs locC1 = some [65] := by decide

/-! ## Claim C6: NoSuchKey taxonomy of Get, and tombstone visibility -/

theorem getQ_none_iff {b k : String} {r : ObjectVersion} :
    getQ b k none r = true ↔ r.bucket_name = b ∧ r.key = k ∧ r.is_latest = true := by
  simp [getQ, inChainB, and_assoc]

theorem getQ_some_iff {b k : String} {vid : Nat} {r : ObjectVersion} :
    getQ b k (some vid) r = true ↔ r.bucket_name = b ∧ r.key = k ∧ r.version_id = vid := by
  simp [getQ, inChainB, and_assoc]

theorem getQ_iff {b k : String} {v : Option Nat} {r : ObjectVersion} :
    getQ b k v r = true ↔ r.bucket_name = b ∧ r.key = k ∧
      (match v with | some vid => r.version_id = vid | none => r.is_latest = true) := by
  cases v
  · exact getQ_none_iff
  · exact getQ_some_iff

theorem get_object_of_find?_none {b k : String} {v : Option Nat} {s : Store}
    (hf : s.rows.find? (getQ b k v) = none) :
    get_object b k v s = .error .noSuchKey := by
  unfold get_object
  rw [hf]

theorem get_object_of_find?_some {b k : String} {v : Option Nat} {s : Store}
    {obj : ObjectVersion} (hf : s.rows.find? (getQ b k v) = some obj) :
    get_object b k v s =
      (if obj.is_delete_marker = true then .error .noSuchKey
       else
         match obj.storage_path with
         | none => .error .internalError
         | some loc =>
           match lookupBlob s.blobs loc with
           | none => .error .internalError
           | some bytes => .ok ⟨bytes, obj.version_id, obj.etag, obj.content_type, obj.size⟩) := by
  unfold get_object
  rw [hf]

/-- Resolution of get_object by cases on the outcome of the row lookup. -/
theorem get_object_eq_noSuchKey_iff (b k : String) (v : Option Nat) (s : Store) :
    get_object b k v s = .error .noSuchKey ↔
      (∀ r ∈ s.rows, ¬ getQ b k v r = true) ∨
      (∃ r, s.rows.find? (getQ b k v) = some r ∧ r.is_delete_marker = true) := by
  constructor
  · intro herr
    cases hf : s.rows.find? (getQ b k v) with
    | none => exact Or.inl (List.find?_eq_none.mp hf)
    | some obj =>
      refine Or.inr ⟨obj, rfl, ?_⟩
      rw [get_object_of_find?_some hf] at herr
      by_cases hm : obj.is_delete_marker = true
      · exact hm
      · rw [if_neg hm] at herr
        cases hsp : obj.storage_path with
        | none =>
          rw [hsp] at herr
          simp at herr
        | some loc =>
          rw [hsp] at herr
          cases hlb : lookupBlob s.blobs loc with
          | none => simp [hlb] at herr
          | some bytes => simp [hlb] at herr
  · intro h
    rcases h with h | ⟨r, hf, hm⟩
    · exact get_object_of_find?_none (List.find?_eq_none.mpr h)
    · rw [get_object_of_find?_some hf, if_pos hm]

/-- C6: Get(bucket, key, version_id?) fails NoSuchKey exactly when no
matching row exists (the requested version_id, or the current row when no
version is given) or when the resolved row is a tombstone; and after
Delete(no version) on a key, Get(no version) fails NoSuchKey, the same
error value as for a never-written key. -/
theorem C6_get_nosuchkey (b k : String) (v : Option Nat) (s : Store)
    (hb : b ∈ s.buckets) (hdis : DistinctRows s.rows)
    (hle : latestCount (chainOf b k s.rows) ≤ 1) :
    (get_object b k v s = .error .noSuchKey ↔
      (∀ r ∈ s.rows, ¬(r.bucket_name = b ∧ r.key = k ∧
          (match v with | some vid => r.version_id = vid | none => r.is_latest = true))) ∨
      (∃ r, s.rows.find? (getQ b k v) = some r ∧ r.is_delete_marker = true)) ∧
    get_object b k none (delete_object b k none s).2 = .error .noSuchKey := by
  constructor
  · rw [get_object_eq_noSuchKey_iff]
    constructor
    · intro h
      rcases h with h | h
      · exact Or.inl (fun r hr hc => h r hr (getQ_iff.mpr hc))
      · exact Or.inr h
    · intro h
      rcases h with h | h
      · exact Or.inl (fun r hr hq => h r hr (getQ_iff.mp hq))
      · exact Or.inr h
  · have hred : (delete_object b k none s).2 =
        { s with rows := demoteOldLatest b k s.rows ++
            [{ id := s.counter, bucket_name := b, key := k, version_id := s.counter,
               is_latest := true, is_delete_marker := true, size := 0, etag := "",
               last_modified := s.counter, content_type := "application/octet-stream",
               storage_path := none }], counter := s.counter + 1 } := by
      simp only [delete_object, if_pos hb]
    rw [hred]
    unfold get_object
    have hpre : ∀ r ∈ demoteOldLatest b k s.rows, ¬ getQ b k none r = true := by
      intro r hr hq
      have hq' := getQ_none_iff.mp hq
      have hrc : r ∈ chainOf b k (demoteOldLatest b k s.rows) :=
        mem_chainOf.mpr ⟨hr, hq'.1, hq'.2.1⟩
      have h0 := latestCount_demoteOldLatest b k s.rows hdis hle
      unfold latestCount at h0
      rw [List.countP_eq_zero] at h0
      exact h0 r hrc hq'.2.2
    simp only
    rw [find?_append_of_none hpre, List.find?_cons_of_pos _ (by
      rw [getQ_none_iff]; exact ⟨rfl, rfl, rfl⟩)]
    rfl

def sC6 : Store :=
  { buckets := ["b"],
    rows := [{ id := 0, bucket_name := "b", key := "k", version_id := 0, is_latest := true,
               is_delete_marker := false, size := 1, etag := "\"aa\"", last_modified := 0,
               content_type := "t", storage_path := some ⟨"b", "h", 0⟩ }],
    blobs := [(⟨"b", "h", 0⟩, [65])], counter := 1 }

theorem C6_get_nosuchkey_witness :
    get_object "b" "k" none (delete_object "b" "k" none sC6).2 = .error .noSuchKey :=
  (C6_get_nosuchkey "b" "k" none sC6 (by decide) (by decide) (by decide)).2

/-! ## Claim C9: properties of the digest (calculate_etag) -/

theorem hexChar_mem_digits (n : Nat) : hexChar n ∈ "0123456789abcdef".toList := by
  unfold hexChar
  rw [List.getD_eq_getElem?_getD]
  cases h : ("0123456789abcdef".toList)[n]? with
  | none => decide
  | some c =>
    simp only [Option.getD_some]
    exact List.getElem?_mem h

theorem hexChar_inj : ∀ a < 16, ∀ b < 16, hexChar a = hexChar b → a = b := by decide

theorem byteHex_mem_digits (b : Nat) : ∀ c ∈ byteHex b, c ∈ "0123456789abcdef".toList := by
  intro c hc
  simp only [byteHex, List.mem_cons, List.not_mem_nil, or_false] at hc
  rcases hc with rfl | rfl <;> exact hexChar_mem_digits _

theorem flatMap_byteHex_inj : ∀ (xs : List Nat), (∀ a ∈ xs, a < 256) →
    ∀ (ys : List Nat), (∀ a ∈ ys, a < 256) →
    xs.flatMap byteHex = ys.flatMap byteHex → xs = ys := by
  intro xs
  induction xs with
  | nil =>
    intro _ ys _ h
    cases ys with
    | nil => rfl
    | cons b bs => simp [byteHex] at h
  | cons a as ih =>
    intro hx ys hy h
    cases ys with
    | nil => simp [byteHex] at h
    | cons b bs =>
      simp only [List.flatMap_cons, byteHex, List.cons_append, List.nil_append] at h
      injection h with h1 h'
      injection h' with h2 h3
      have e1 : a / 16 % 16 = b / 16 % 16 :=
        hexChar_inj _ (Nat.mod_lt _ (by norm_num)) _ (Nat.mod_lt _ (by norm_num)) h1
      have e2 : a % 16 = b % 16 :=
        hexChar_inj _ (Nat.mod_lt _ (by norm_num)) _ (Nat.mod_lt _ (by norm_num)) h2
      have ha := hx a (List.mem_cons_self _ _)
      have hb := hy b (List.mem_cons_self _ _)
      have hab : a = b := by omega
      subst hab
      exact congrArg (a :: ·)
        (ih (fun x hx' => hx x (List.mem_cons_of_mem _ hx')) bs
          (fun x hx' => hy x (List.mem_cons_of_mem _ hx')) h3)

theorem wordLE_lt (w : Nat) : ∀ x ∈ wordLE w, x < 256 := by
  intro x hx
  simp only [wordLE, List.mem_cons, List.not_mem_nil, or_false] at hx
  rcases hx with rfl | rfl | rfl | rfl <;> omega

theorem md5Bytes_eq_words (m : List Nat) :
    ∃ a b c d, md5Bytes m = wordLE a ++ wordLE b ++ wordLE c ++ wordLE d :=
  ⟨_, _, _, _, rfl⟩

theorem md5Bytes_lt (m : List Nat) : ∀ x ∈ md5Bytes m, x < 256 := by
  intro x hx
  obtain ⟨a, b, c, d, he⟩ := md5Bytes_eq_words m
  rw [he] at hx
  rw [List.append_assoc, List.append_assoc] at hx
  rw [List.mem_append] at hx
  rcases hx with h | hx
  · exact wordLE_lt _ _ h
  rw [List.mem_append] at hx
  rcases hx with h | hx
  · exact wordLE_lt _ _ h
  rw [List.mem_append] at hx
  rcases hx with h | h <;> exact wordLE_lt _ _ h

theorem calculate_etag_data (x : List Nat) :
    (calculate_etag x).data = '"' :: (hexString (md5Bytes x)).data ++ ['"'] := by
  show (("\"" ++ hexString (md5Bytes x)) ++ "\"").data = _
  rw [String.data_append, String.data_append]
  rfl

/-- C9: the digest is deterministic (equal inputs give equal tags), it is a
double-quoted string of lowercase hexadecimal digits, and two inputs get the
same digest only when their md5 hashes collide. -/
theorem C9_digest_properties (x y : List Nat) :
    (x = y → calculate_etag x = calculate_etag y) ∧
    ((calculate_etag x).data = '"' :: (hexString (md5Bytes x)).data ++ ['"'] ∧
      ∀ c ∈ (hexString (md5Bytes x)).data, c ∈ "0123456789abcdef".toList) ∧
    (calculate_etag x = calculate_etag y → md5Bytes x = md5Bytes y) := by
  refine ⟨fun h => by rw [h], ⟨calculate_etag_data x, ?_⟩, ?_⟩
  · intro c hc
    have hrepr : (hexString (md5Bytes x)).data = (md5Bytes x).flatMap byteHex := rfl
    rw [hrepr, List.mem_flatMap] at hc
    obtain ⟨a, _, hca⟩ := hc
    exact byteHex_mem_digits a c hca
  · intro h
    have hd := congrArg String.data h
    rw [calculate_etag_data, calculate_etag_data] at hd
    injection hd with _ hd'
    exact flatMap_byteHex_inj _ (md5Bytes_lt x) _ (md5Bytes_lt y)
      (List.append_cancel_right hd')

theorem C9_digest_properties_witness :
    calculate_etag [] = calculate_etag [] ∧ md5Bytes [] = md5Bytes [] :=
  ⟨(C9_digest_properties [] []).1 rfl, (C9_digest_properties [] []).2.2 rfl⟩

/-! ## Claims C3 and C7: the Put transition and the Put/Get round trip -/

/-- When the chain has at most one current row, demoting the first found
current row is the same as demoting every current row of the chain. -/
theorem demoteOldLatest_map_char (b k : String) (rows : List ObjectVersion)
    (hdis : DistinctRows rows) (hle : latestCount (chainOf b k rows) ≤ 1) :
    demoteOldLatest b k rows =
      rows.map (fun r => if latestQ b k r then { r with is_latest := false } else r) := by
  unfold demoteOldLatest
  cases hf : rows.find? (latestQ b k) with
  | none =>
    have hno := List.find?_eq_none.mp hf
    symm
    have hcong : ∀ r ∈ rows,
        (if latestQ b k r then { r with is_latest := false } else r) = id r := by
      intro r hr
      rw [if_neg, id]
      exact hno r hr
    rw [List.map_congr_left hcong, List.map_id]
  | some old =>
    have hmem := List.mem_of_find?_eq_some hf
    have hq := List.find?_some hf
    unfold demoteById
    apply List.map_congr_left
    intro r hr
    by_cases hid : r.id = old.id
    · have hro : r = old := distinct_id_inj hdis hr hmem hid
      rw [if_pos hid, if_pos (hro ▸ hq)]
    · rw [if_neg hid, if_neg]
      intro hq'
      have hq'' := latestQ_iff.mp hq'
      have holdq := latestQ_iff.mp hq
      have hrc : r ∈ chainOf b k rows := mem_chainOf.mpr ⟨hr, hq''.1, hq''.2.1⟩
      have holdc : old ∈ chainOf b k rows := mem_chainOf.mpr ⟨hmem, holdq.1, holdq.2.1⟩
      exact hid (congrArg ObjectVersion.id (latest_unique hle hrc holdc hq''.2.2 holdq.2.2))

/-- After demoting the old current row, no row of the chain is current. -/
theorem demoted_no_current (b k : String) (rows : List ObjectVersion)
    (hdis : DistinctRows rows) (hle : latestCount (chainOf b k rows) ≤ 1) :
    ∀ r ∈ demoteOldLatest b k rows, ¬ getQ b k none r = true := by
  intro r hr hq
  have hq' := getQ_none_iff.mp hq
  have hrc : r ∈ chainOf b k (demoteOldLatest b k rows) :=
    mem_chainOf.mpr ⟨hr, hq'.1, hq'.2.1⟩
  have h0 := latestCount_demoteOldLatest b k rows hdis hle
  unfold latestCount at h0
  rw [List.countP_eq_zero] at h0
  exact h0 r hrc hq'.2.2

theorem lookupBlob_writeBlob (bs : BlobStore) (l : Locator) (c : List Nat) :
    lookupBlob (writeBlob bs l c) l = some c := by
  unfold lookupBlob writeBlob
  rw [List.find?_cons_of_pos _ (by simp)]
  rfl

/-- C3: for every existing bucket, Put computes digest and size over the
content, generates a version_id fresh for the whole store, persists the
content under the derived locator, flips the prior current row of the
chain (if any) to not-current, appends a new row that is current, not a
tombstone, and carries that locator, digest, size, content_type and a
fresh last_modified; the demotion and the insertion land in one committed
transition, the new row is the unique current row of the chain, and
(version_id, digest) is returned. -/
theorem C3_put_effect (b k : String) (content : List Nat) (ct : String) (s : Store)
    (hb : b ∈ s.buckets)
    (hfresh : ∀ r ∈ s.rows, r.id < s.counter ∧ r.version_id < s.counter)
    (hdis : DistinctRows s.rows)
    (hle : latestCount (chainOf b k s.rows) ≤ 1) :
    (put_object b k content ct s).1 = .ok (s.counter, calculate_etag content) ∧
    (∀ r ∈ s.rows, ¬ r.version_id = s.counter) ∧
    lookupBlob (put_object b k content ct s).2.blobs (save_file_loc b k s.counter) =
      some content ∧
    (put_object b k content ct s).2.rows =
      s.rows.map (fun r => if latestQ b k r then { r with is_latest := false } else r) ++
        [{ id := s.counter, bucket_name := b, key := k, version_id := s.counter,
           is_latest := true, is_delete_marker := false, size := content.length,
           etag := calculate_etag content, last_modified := s.counter,
           content_type := ct, storage_path := some (save_file_loc b k s.counter) }] ∧
    latestCount (chainOf b k (put_object b k content ct s).2.rows) = 1 := by
  have hrows : (put_object b k content ct s).2.rows =
      demoteOldLatest b k s.rows ++
        [{ id := s.counter, bucket_name := b, key := k, version_id := s.counter,
           is_latest := true, is_delete_marker := false, size := content.length,
           etag := calculate_etag content, last_modified := s.counter,
           content_type := ct, storage_path := some (save_file_loc b k s.counter) }] := by
    simp only [put_object, if_pos hb]
  have hblobs : (put_object b k content ct s).2.blobs =
      writeBlob s.blobs (save_file_loc b k s.counter) content := by
    simp only [put_object, if_pos hb]
  refine ⟨by simp only [put_object, if_pos hb], ?_, ?_, ?_, ?_⟩
  · intro r hr hc
    have := (hfresh r hr).2
    omega
  · rw [hblobs]
    exact lookupBlob_writeBlob _ _ _
  · rw [hrows, demoteOldLatest_map_char b k s.rows hdis hle]
  · rw [hrows, chainOf_append]
    unfold latestCount
    rw [List.countP_append]
    have h0 := latestCount_demoteOldLatest b k s.rows hdis hle
    unfold latestCount at h0
    rw [h0]
    simp [chainOf, inChainB]

/-- C7: Put(content) then Get(no version) returns bytes identical to the
content, the digest of the content, the content's length as size, and the
version_id the Put returned. -/
theorem C7_roundtrip (b k : String) (content : List Nat) (ct : String) (s : Store)
    (hb : b ∈ s.buckets) (hdis : DistinctRows s.rows)
    (hle : latestCount (chainOf b k s.rows) ≤ 1) :
    (put_object b k content ct s).1 = .ok (s.counter, calculate_etag content) ∧
    get_object b k none (put_object b k content ct s).2 =
      .ok ⟨content, s.counter, calculate_etag content, ct, content.length⟩ := by
  have hrows : (put_object b k content ct s).2.rows =
      demoteOldLatest b k s.rows ++
        [{ id := s.counter, bucket_name := b, key := k, version_id := s.counter,
           is_latest := true, is_delete_marker := false, size := content.length,
           etag := calculate_etag content, last_modified := s.counter,
           content_type := ct, storage_path := some (save_file_loc b k s.counter) }] := by
    simp only [put_object, if_pos hb]
  have hblobs : (put_object b k content ct s).2.blobs =
      writeBlob s.blobs (save_file_loc b k s.counter) content := by
    simp only [put_object, if_pos hb]
  refine ⟨by simp only [put_object, if_pos hb], ?_⟩
  have hfind : (put_object b k content ct s).2.rows.find? (getQ b k none) =
      some { id := s.counter, bucket_name := b, key := k, version_id := s.counter,
             is_latest := true, is_delete_marker := false, size := content.length,
             etag := calculate_etag content, last_modified := s.counter,
             content_type := ct, storage_path := some (save_file_loc b k s.counter) } := by
    rw [hrows, find?_append_of_none (demoted_no_current b k s.rows hdis hle),
      List.find?_cons_of_pos _ (by rw [getQ_none_iff]; exact ⟨rfl, rfl, rfl⟩)]
  rw [get_object_of_find?_some hfind]
  simp [hblobs, lookupBlob_writeBlob]

def sC3 : Store := { buckets := ["b"], rows := [], blobs := [], counter := 0 }

theorem C3_put_effect_witness :
    (put_object "b" "k" [65] "t" sC3).1 = .ok (0, calculate_etag [65]) ∧
    latestCount (chainOf "b" "k" (put_object "b" "k" [65] "t" sC3).2.rows) = 1 :=
  ⟨(C3_put_effect "b" "k" [65] "t" sC3 (by decide) (by decide) (by decide) (by decide)).1,
   (C3_put_effect "b" "k" [65] "t" sC3 (by decide) (by decide) (by decide) (by decide)).2.2.2.2⟩

def sC7 : Store := { buckets := ["c"], rows := [], blobs := [], counter := 0 }

theorem C7_roundtrip_witness :
    get_object "c" "k" none (put_object "c" "k" [66] "t" sC7).2 =
      .ok ⟨[66], 0, calculate_etag [66], "t", 1⟩ :=
  (C7_roundtrip "c" "k" [66] "t" sC7 (by decide) (by decide) (by decide)).2

/-! ## Claim C5: targeted delete -/

instance : IsTotal ObjectVersion lmGE :=
  ⟨fun a b => Nat.le_total b.last_modified a.last_modified⟩

instance : IsTrans ObjectVersion lmGE :=
  ⟨fun _ _ _ hab hbc => le_trans hbc hab⟩

theorem sortLMDesc_head_max (L : List ObjectVersion) {nxt : ObjectVersion}
    (h : (sortLMDesc L).head? = some nxt) :
    nxt ∈ L ∧ ∀ x ∈ L, x.last_modified ≤ nxt.last_modified := by
  have hperm := List.perm_insertionSort lmGE L
  have hsorted : List.Sorted lmGE (List.insertionSort lmGE L) :=
    List.sorted_insertionSort lmGE L
  unfold sortLMDesc at h
  cases hs : List.insertionSort lmGE L with
  | nil => rw [hs] at h; cases h
  | cons a tl =>
    rw [hs] at h hperm hsorted
    injection h with h
    subst h
    refine ⟨hperm.mem_iff.mp (List.mem_cons_self _ _), ?_⟩
    intro x hx
    rcases List.mem_cons.mp (hperm.mem_iff.mpr hx) with rfl | hxt
    · exact le_refl _
    · exact (List.pairwise_cons.mp hsorted).1 x hxt

theorem sortLMDesc_head_none {L : List ObjectVersion}
    (h : (sortLMDesc L).head? = none) : L = [] := by
  have hperm := List.perm_insertionSort lmGE L
  rw [List.head?_eq_none_iff] at h
  unfold sortLMDesc at h
  rw [h] at hperm
  exact (List.perm_nil.mp hperm.symm)

theorem delete_object_of_versionQ_some {b k : String} {vid : Nat} {s : Store}
    {obj : ObjectVersion} (hf : s.rows.find? (versionQ b k vid) = some obj) :
    delete_object b k (some vid) s =
      (.ok none,
       { s with
         rows := (if obj.is_latest then
             match (sortLMDesc (s.rows.filter (notVersionQ b k vid))).head? with
             | some nxt => promoteById nxt.id s.rows
             | none => s.rows
           else s.rows).filter (fun x => decide (¬ x.id = obj.id)),
         blobs := match obj.storage_path with
           | some loc => removeBlob s.blobs loc
           | none => s.blobs }) := by
  unfold delete_object
  simp only [hf]

/-- C5: for every chain and every version_id present in it (as a unique row
r), Delete(bucket, key, version_id) succeeds, removes exactly that row,
deletes its blob exactly when the row is not a tombstone, touches no other
chain, and, when the removed row was current and rows remain, promotes a
remaining chain row of greatest last_modified to current; when the chain
becomes empty the key ceases to exist. -/
theorem C5_delete_version (b k : String) (vid : Nat) (s : Store) (r : ObjectVersion)
    (hr : r ∈ s.rows) (hrb : r.bucket_name = b) (hrk : r.key = k) (hrv : r.version_id = vid)
    (hdis : DistinctRows s.rows)
    (hI2a : r.is_delete_marker = true → r.storage_path = none)
    (hI2b : r.is_delete_marker = false → r.storage_path.isSome) :
    (delete_object b k (some vid) s).1 = .ok none ∧
    (∀ b' k', ¬(b' = b ∧ k' = k) →
      chainOf b' k' (delete_object b k (some vid) s).2.rows = chainOf b' k' s.rows) ∧
    ((r.is_delete_marker = true → (delete_object b k (some vid) s).2.blobs = s.blobs) ∧
     (r.is_delete_marker = false → ∃ l, r.storage_path = some l ∧
        (delete_object b k (some vid) s).2.blobs = removeBlob s.blobs l)) ∧
    (r.is_latest = false →
      chainOf b k (delete_object b k (some vid) s).2.rows =
        (chainOf b k s.rows).filter (fun x => decide (¬ x.version_id = vid))) ∧
    ((chainOf b k s.rows).filter (fun x => decide (¬ x.version_id = vid)) = [] →
      chainOf b k (delete_object b k (some vid) s).2.rows = []) ∧
    (r.is_latest = true →
      (chainOf b k s.rows).filter (fun x => decide (¬ x.version_id = vid)) ≠ [] →
      ∃ m ∈ (chainOf b k s.rows).filter (fun x => decide (¬ x.version_id = vid)),
        (∀ x ∈ (chainOf b k s.rows).filter (fun x => decide (¬ x.version_id = vid)),
          x.last_modified ≤ m.last_modified) ∧
        chainOf b k (delete_object b k (some vid) s).2.rows =
          ((chainOf b k s.rows).filter (fun x => decide (¬ x.version_id = vid))).map
            (fun x => if x.id = m.id then { x with is_latest := true } else x)) := by
  have hfind : s.rows.find? (versionQ b k vid) = some r :=
    find?_unique hr (versionQ_iff.mpr ⟨hrb, hrk, hrv⟩)
      (fun x hx hpx =>
        distinct_vid_inj hdis hx hr (by rw [(versionQ_iff.mp hpx).2.2, hrv]))
  have hout := delete_object_of_versionQ_some hfind
  -- the SQL filter for the promotion query equals the remaining chain
  have hrem : s.rows.filter (notVersionQ b k vid) =
      (chainOf b k s.rows).filter (fun x => decide (¬ x.version_id = vid)) := by
    unfold chainOf
    rw [List.filter_filter]
    apply List.filter_congr
    intro x _
    by_cases h1 : x.bucket_name = b <;> by_cases h2 : x.key = k <;>
      by_cases h3 : x.version_id = vid <;>
      simp [notVersionQ, inChainB, h1, h2, h3]
  -- removing by id and removing by version_id agree on rows of the store
  have hfilters : ∀ L : List ObjectVersion, (∀ x ∈ L, x ∈ s.rows) →
      L.filter (fun x => decide (¬ x.id = r.id)) =
        L.filter (fun x => decide (¬ x.version_id = vid)) := by
    intro L hL
    apply List.filter_congr
    intro x hx
    by_cases hxr : x = r
    · subst hxr
      simp [hrv]
    · have h1 : ¬ x.id = r.id := fun h => hxr (distinct_id_inj hdis (hL x hx) hr h)
      have h2 : ¬ x.version_id = vid :=
        fun h => hxr (distinct_vid_inj hdis (hL x hx) hr (by rw [h, hrv]))
      simp [h1, h2]
  have hrows2 : (delete_object b k (some vid) s).2.rows =
      (if r.is_latest = true then
         match (sortLMDesc (s.rows.filter (notVersionQ b k vid))).head? with
         | some nxt => promoteById nxt.id s.rows
         | none => s.rows
       else s.rows).filter (fun x => decide (¬ x.id = r.id)) := by rw [hout]
  have hblobs2 : (delete_object b k (some vid) s).2.blobs =
      (match r.storage_path with
       | some loc => removeBlob s.blobs loc
       | none => s.blobs) := by rw [hout]
  refine ⟨by rw [hout], ?_, ?_, ?_, ?_, ?_⟩
  · -- other chains untouched
    intro b' k' hne
    have hstep : ∀ rows1 : List ObjectVersion,
        (rows1 = s.rows ∨ ∃ nxt ∈ chainOf b k s.rows, rows1 = promoteById nxt.id s.rows) →
        chainOf b' k' (rows1.filter (fun x => decide (¬ x.id = r.id))) =
          chainOf b' k' s.rows := by
      intro rows1 h1
      have hbase : chainOf b' k' rows1 = chainOf b' k' s.rows := by
        rcases h1 with rfl | ⟨nxt, hnxt, rfl⟩
        · rfl
        · rw [chainOf_promoteById]
          unfold promoteById
          have hcong : ∀ x ∈ chainOf b' k' s.rows,
              (if x.id = nxt.id then { x with is_latest := true } else x) = id x := by
            intro x hxc
            have hxc' := mem_chainOf.mp hxc
            have hnxt' := mem_chainOf.mp hnxt
            rw [if_neg, id]
            intro hid
            have hxe : x = nxt := distinct_id_inj hdis hxc'.1 hnxt'.1 hid
            exact hne ⟨hxc'.2.1 ▸ hxe ▸ hnxt'.2.1, hxc'.2.2 ▸ hxe ▸ hnxt'.2.2⟩
          rw [List.map_congr_left hcong, List.map_id]
      rw [chainOf_filter, hbase, List.filter_eq_self.mpr]
      intro x hxc
      have hxc' := mem_chainOf.mp hxc
      simp only [decide_eq_true_eq]
      intro hid
      have hxe : x = r := distinct_id_inj hdis hxc'.1 hr hid
      exact hne ⟨hxc'.2.1 ▸ hxe ▸ hrb, hxc'.2.2 ▸ hxe ▸ hrk⟩
    rw [hrows2]
    apply hstep
    by_cases hlat : r.is_latest = true
    · rw [if_pos hlat]
      cases hhd : (sortLMDesc (s.rows.filter (notVersionQ b k vid))).head? with
      | none => exact Or.inl rfl
      | some nxt =>
        right
        refine ⟨nxt, ?_, rfl⟩
        have hmax := sortLMDesc_head_max _ hhd
        have hmem1 := hmax.1
        rw [hrem] at hmem1
        exact (List.mem_filter.mp hmem1).1
    · rw [if_neg hlat]
      exact Or.inl rfl
  · -- blobs
    constructor
    · intro hm
      rw [hblobs2, hI2a hm]
    · intro hm
      have hsome := hI2b hm
      cases hsp : r.storage_path with
      | none => rw [hsp] at hsome; cases hsome
      | some l =>
        refine ⟨l, rfl, ?_⟩
        rw [hblobs2, hsp]
  · -- r not latest: the chain just loses r
    intro hlat
    rw [hrows2, if_neg (by rw [hlat]; exact Bool.false_ne_true), chainOf_filter]
    exact hfilters _ (fun x hx => (mem_chainOf.mp hx).1)
  · -- remaining chain empty: the key ceases to exist
    intro hempty
    rw [hrows2]
    by_cases hlat : r.is_latest = true
    · rw [if_pos hlat]
      cases hhd : (sortLMDesc (s.rows.filter (notVersionQ b k vid))).head? with
      | none =>
        rw [chainOf_filter, hfilters _ (fun x hx => (mem_chainOf.mp hx).1), hempty]
      | some nxt =>
        exfalso
        have hmax := sortLMDesc_head_max _ hhd
        have h1 := hmax.1
        rw [hrem, hempty] at h1
        cases h1
    · rw [if_neg hlat, chainOf_filter,
        hfilters _ (fun x hx => (mem_chainOf.mp hx).1), hempty]
  · -- r latest and rows remain: a greatest-last_modified row is promoted
    intro hlat hne
    rw [hrows2, if_pos hlat]
    cases hhd : (sortLMDesc (s.rows.filter (notVersionQ b k vid))).head? with
    | none =>
      exfalso
      have hnil := sortLMDesc_head_none hhd
      rw [hrem] at hnil
      exact hne hnil
    | some nxt =>
      have hmax := sortLMDesc_head_max _ hhd
      have hnxtmem := hmax.1
      rw [hrem] at hnxtmem
      refine ⟨nxt, hnxtmem, ?_, ?_⟩
      · intro x hx
        apply hmax.2
        rw [hrem]
        exact hx
      · rw [chainOf_filter, chainOf_promoteById]
        unfold promoteById
        rw [List.filter_map]
        have hps : ((fun x : ObjectVersion => decide (¬ x.id = r.id)) ∘
            (fun x : ObjectVersion =>
              if x.id = nxt.id then { x with is_latest := true } else x)) =
            (fun x : ObjectVersion => decide (¬ x.id = r.id)) := by
          funext x
          simp
        rw [hps, hfilters _ (fun x hx => (mem_chainOf.mp hx).1)]

def rC5a : ObjectVersion :=
  { id := 0, bucket_name := "b", key := "k", version_id := 0, is_latest := false,
    is_delete_marker := false, size := 1, etag := "\"a\"", last_modified := 0,
    content_type := "t", storage_path := some ⟨"b", "h", 0⟩ }

def rC5b : ObjectVersion :=
  { id := 1, bucket_name := "b", key := "k", version_id := 1, is_latest := true,
    is_delete_marker := false, size := 1, etag := "\"b\"", last_modified := 1,
    content_type := "t", storage_path := some ⟨"b", "h", 1⟩ }

def sC5 : Store :=
  { buckets := ["b"], rows := [rC5a, rC5b],
    blobs := [(⟨"b", "h", 0⟩, [65]), (⟨"b", "h", 1⟩, [66])], counter := 2 }

theorem C5_delete_version_witness :
    (delete_object "b" "k" (some 1) sC5).1 = .ok none :=
  (C5_delete_version "b" "k" 1 sC5 rC5b (by decide) (by decide) (by decide) (by decide)
    (by decide) (by decide) (by decide)).1

/-! ## Claim C4: rollback with the target present -/

theorem rbScan_after (vid : Nat) (S : List ObjectVersion)
    (hS : ∀ x ∈ S, ¬ x.version_id = vid) :
    rbScan vid S true =
      ⟨[], [], [], (S.filter (fun r => r.is_latest)).map (fun r => r.id), true⟩ := by
  induction S with
  | nil => rfl
  | cons a t ih =>
    simp only [rbScan, if_neg (hS a (List.mem_cons_self _ _)), if_true,
      ih (fun x hx => hS x (List.mem_cons_of_mem _ hx)), List.filter_cons]
    by_cases hl : a.is_latest
    · simp [hl]
    · simp [hl]

theorem rbScan_before (vid : Nat) (P rest : List ObjectVersion)
    (hP : ∀ x ∈ P, ¬ x.version_id = vid) :
    rbScan vid (P ++ rest) false =
      { rbScan vid rest false with
        destroyedIds :=
          P.map (fun r => r.id) ++ (rbScan vid rest false).destroyedIds,
        destroyedLocs :=
          P.filterMap (fun r => r.storage_path) ++ (rbScan vid rest false).destroyedLocs } := by
  induction P with
  | nil => rfl
  | cons a P' ih =>
    rw [List.cons_append]
    simp only [rbScan, if_neg (hP a (List.mem_cons_self _ _)), Bool.false_eq_true, if_false,
      ih (fun x hx => hP x (List.mem_cons_of_mem _ hx)), List.map_cons, List.filterMap_cons]
    cases a.storage_path <;> simp

theorem rbScan_split (vid : Nat) (P S : List ObjectVersion) (tgt : ObjectVersion)
    (hP : ∀ x ∈ P, ¬ x.version_id = vid) (ht : tgt.version_id = vid)
    (hS : ∀ x ∈ S, ¬ x.version_id = vid) :
    rbScan vid (P ++ tgt :: S) false =
      ⟨P.map (fun r => r.id), P.filterMap (fun r => r.storage_path), [tgt.id],
       (S.filter (fun r => r.is_latest)).map (fun r => r.id), true⟩ := by
  rw [rbScan_before vid P _ hP]
  simp only [rbScan, if_pos ht, rbScan_after vid S hS]
  simp

theorem rbScan_not_found (vid : Nat) (L : List ObjectVersion)
    (hL : ∀ x ∈ L, ¬ x.version_id = vid) : (rbScan vid L false).found = false := by
  induction L with
  | nil => rfl
  | cons a t ih =>
    simp only [rbScan, if_neg (hL a (List.mem_cons_self _ _)), Bool.false_eq_true, if_false]
    exact ih (fun x hx => hL x (List.mem_cons_of_mem _ hx))

theorem foldl_removeBlob (L : List Locator) (bs : BlobStore) :
    L.foldl removeBlob bs = bs.filter (fun p => decide (¬ p.1 ∈ L)) := by
  induction L generalizing bs with
  | nil =>
    rw [List.foldl_nil]
    symm
    apply List.filter_eq_self.mpr
    intro p _
    simp
  | cons l L' ih =>
    rw [List.foldl_cons, ih]
    unfold removeBlob
    rw [List.filter_filter]
    apply List.filter_congr
    intro p _
    by_cases h1 : p.1 = l <;> by_cases h2 : p.1 ∈ L' <;> simp [h1, h2]

theorem rbCommit_some_fields {T : RbScan} {a a' : ObjectVersion}
    (h : (if a.id ∈ T.destroyedIds then none
          else if a.id ∈ T.promotedIds then some { a with is_latest := true }
          else if a.id ∈ T.demotedIds then some { a with is_latest := false }
          else some a) = some a') :
    a'.id = a.id ∧ a'.version_id = a.version_id ∧
      a'.bucket_name = a.bucket_name ∧ a'.key = a.key ∧
      a'.last_modified = a.last_modified := by
  split at h
  · cases h
  · split at h
    · injection h with h
      subst h
      exact ⟨rfl, rfl, rfl, rfl, rfl⟩
    · split at h
      · injection h with h
        subst h
        exact ⟨rfl, rfl, rfl, rfl, rfl⟩
      · injection h with h
        subst h
        exact ⟨rfl, rfl, rfl, rfl, rfl⟩

/-- Full characterization of a rollback whose target is present in the
chain: success, the chain keeps the target (promoted) and everything
strictly older (forced non-current), rows strictly newer are destroyed
with their blobs, and no other chain or blob is touched. -/
theorem rollback_found_char (b k : String) (vid : Nat) (s : Store) (tgt : ObjectVersion)
    (htc : tgt ∈ chainOf b k s.rows) (hv : tgt.version_id = vid)
    (hdis : DistinctRows s.rows)
    (hLM : (chainOf b k s.rows).Pairwise
      (fun a c => a.last_modified ≠ c.last_modified)) :
    (ui_rollback b k vid s).1 = .ok () ∧
    chainOf b k (ui_rollback b k vid s).2.rows =
      (chainOf b k s.rows).filterMap (fun x =>
        if tgt.last_modified < x.last_modified then none
        else if x.version_id = vid then some { x with is_latest := true }
        else some { x with is_latest := false }) ∧
    (∀ b' k', ¬(b' = b ∧ k' = k) →
      chainOf b' k' (ui_rollback b k vid s).2.rows = chainOf b' k' s.rows) ∧
    (ui_rollback b k vid s).2.blobs =
      s.blobs.filter (fun p => decide (¬ p.1 ∈
        ((chainOf b k s.rows).filter
          (fun x => decide (tgt.last_modified < x.last_modified))).filterMap
          (fun x => x.storage_path))) ∧
    DistinctRows (ui_rollback b k vid s).2.rows ∧
    (∀ x ∈ (ui_rollback b k vid s).2.rows, ∃ y ∈ s.rows,
      x.id = y.id ∧ x.version_id = y.version_id) := by
  have hperm : (sortLMDesc (chainOf b k s.rows)).Perm (chainOf b k s.rows) :=
    List.perm_insertionSort lmGE _
  have hsorted : List.Sorted lmGE (sortLMDesc (chainOf b k s.rows)) :=
    List.sorted_insertionSort lmGE _
  have hdisL : DistinctRows (sortLMDesc (chainOf b k s.rows)) :=
    (hperm.pairwise_iff (fun {x y} hxy => ⟨hxy.1.symm, hxy.2.symm⟩)).mpr
      (distinct_chainOf hdis)
  have hLML : (sortLMDesc (chainOf b k s.rows)).Pairwise
      (fun a c => a.last_modified ≠ c.last_modified) :=
    (hperm.pairwise_iff (fun {x y} h => h.symm)).mpr hLM
  have htL : tgt ∈ sortLMDesc (chainOf b k s.rows) := hperm.mem_iff.mpr htc
  obtain ⟨P, S, hsplit⟩ := List.append_of_mem htL
  have hsub : ∀ x ∈ sortLMDesc (chainOf b k s.rows), x ∈ chainOf b k s.rows :=
    fun x hx => hperm.mem_iff.mp hx
  have hPchain : ∀ x ∈ P, x ∈ chainOf b k s.rows :=
    fun x hx => hsub x (hsplit ▸ List.mem_append.mpr (Or.inl hx))
  have hSchain : ∀ x ∈ S, x ∈ chainOf b k s.rows :=
    fun x hx => hsub x (hsplit ▸ List.mem_append.mpr (Or.inr (List.mem_cons_of_mem _ hx)))
  have hProws : ∀ x ∈ P, x ∈ s.rows := fun x hx => (mem_chainOf.mp (hPchain x hx)).1
  have hSrows : ∀ x ∈ S, x ∈ s.rows := fun x hx => (mem_chainOf.mp (hSchain x hx)).1
  have htgtrows : tgt ∈ s.rows := (mem_chainOf.mp htc).1
  have hvid_inj : ∀ x ∈ chainOf b k s.rows, x.version_id = vid → x = tgt := by
    intro x hx hxv
    exact distinct_vid_inj hdis (mem_chainOf.mp hx).1 htgtrows (by rw [hxv, hv])
  have hnodupL : (P ++ tgt :: S).Nodup := hsplit ▸ hdisL.nodup
  have htgtP : tgt ∉ P := by
    intro hp
    exact ((List.pairwise_append.mp hnodupL).2.2 tgt hp tgt (List.mem_cons_self _ _)) rfl
  have htgtS : tgt ∉ S := by
    intro hs'
    exact (List.nodup_cons.mp (List.pairwise_append.mp hnodupL).2.1).1 hs'
  have hPS : ∀ x ∈ P, x ∉ S := by
    intro x hx hxs
    exact ((List.pairwise_append.mp hnodupL).2.2 x hx x
      (List.mem_cons_of_mem _ hxs)) rfl
  have hP : ∀ x ∈ P, ¬ x.version_id = vid := by
    intro x hx hxv
    exact htgtP ((hvid_inj x (hPchain x hx) hxv) ▸ hx)
  have hS : ∀ x ∈ S, ¬ x.version_id = vid := by
    intro x hx hxv
    exact htgtS ((hvid_inj x (hSchain x hx) hxv) ▸ hx)
  have hsortedL : List.Pairwise lmGE (P ++ tgt :: S) := hsplit ▸ hsorted
  have hLMsplit : (P ++ tgt :: S).Pairwise
      (fun a c => a.last_modified ≠ c.last_modified) := hsplit ▸ hLML
  have hPgt : ∀ x ∈ P, tgt.last_modified < x.last_modified := by
    intro x hx
    have hle : tgt.last_modified ≤ x.last_modified :=
      (List.pairwise_append.mp hsortedL).2.2 x hx tgt (List.mem_cons_self _ _)
    have hne : x.last_modified ≠ tgt.last_modified :=
      (List.pairwise_append.mp hLMsplit).2.2 x hx tgt (List.mem_cons_self _ _)
    omega
  have hSlt : ∀ x ∈ S, x.last_modified < tgt.last_modified := by
    intro x hx
    have hle : x.last_modified ≤ tgt.last_modified :=
      (List.pairwise_cons.mp (List.pairwise_append.mp hsortedL).2.1).1 x hx
    have hne : tgt.last_modified ≠ x.last_modified :=
      (List.pairwise_cons.mp (List.pairwise_append.mp hLMsplit).2.1).1 x hx
    omega
  have hcases : ∀ x ∈ chainOf b k s.rows, x ∈ P ∨ x = tgt ∨ x ∈ S := by
    intro x hx
    have hx' : x ∈ P ++ tgt :: S := hsplit ▸ (hperm.mem_iff.mpr hx)
    rcases List.mem_append.mp hx' with h | h
    · exact Or.inl h
    · rcases List.mem_cons.mp h with h | h
      · exact Or.inr (Or.inl h)
      · exact Or.inr (Or.inr h)
  have hscan : rbScan vid (sortLMDesc (chainOf b k s.rows)) false =
      ⟨P.map (fun r => r.id), P.filterMap (fun r => r.storage_path), [tgt.id],
       (S.filter (fun r => r.is_latest)).map (fun r => r.id), true⟩ := by
    rw [hsplit]
    exact rbScan_split vid P S tgt hP hv hS
  have hred1 : (ui_rollback b k vid s).1 = .ok () := by
    unfold ui_rollback
    rw [hscan]
    rfl
  have hrows : (ui_rollback b k vid s).2.rows =
      rbCommit ⟨P.map (fun r => r.id), P.filterMap (fun r => r.storage_path), [tgt.id],
        (S.filter (fun r => r.is_latest)).map (fun r => r.id), true⟩ s.rows := by
    unfold ui_rollback
    rw [hscan]
    rfl
  have hblobs : (ui_rollback b k vid s).2.blobs =
      (P.filterMap (fun r => r.storage_path)).foldl removeBlob s.blobs := by
    unfold ui_rollback
    rw [hscan]
    rfl
  -- membership tests of the staged id lists, for rows of the table
  have hmemP : ∀ x ∈ s.rows, (x.id ∈ P.map (fun r => r.id) ↔ x ∈ P) := by
    intro x hx
    constructor
    · intro hm
      obtain ⟨p, hp, hpe⟩ := List.mem_map.mp hm
      rwa [distinct_id_inj hdis (hProws p hp) hx hpe] at hp
    · intro hm
      exact List.mem_map.mpr ⟨x, hm, rfl⟩
  have hmemT : ∀ x ∈ s.rows, (x.id ∈ [tgt.id] ↔ x = tgt) := by
    intro x hx
    constructor
    · intro hm
      rcases List.mem_cons.mp hm with h | h
      · exact distinct_id_inj hdis hx htgtrows h
      · cases h
    · intro hm
      rw [hm]
      exact List.mem_cons_self _ _
  have hmemD : ∀ x ∈ s.rows,
      (x.id ∈ (S.filter (fun r => r.is_latest)).map (fun r => r.id) ↔
        (x ∈ S ∧ x.is_latest = true)) := by
    intro x hx
    constructor
    · intro hm
      obtain ⟨y, hy, hye⟩ := List.mem_map.mp hm
      have hyf := List.mem_filter.mp hy
      have hyx : y = x := distinct_id_inj hdis (hSrows y hyf.1) hx hye
      exact ⟨hyx ▸ hyf.1, hyx ▸ hyf.2⟩
    · intro ⟨hm, hl⟩
      exact List.mem_map.mpr ⟨x, List.mem_filter.mpr ⟨hm, hl⟩, rfl⟩
  refine ⟨hred1, ?_, ?_, ?_, ?_, ?_⟩
  · -- the chain after commit
    rw [hrows]
    unfold rbCommit
    rw [chainOf_filterMap b k _
      (fun r r' h =>
        ⟨(rbCommit_some_fields h).2.2.1, (rbCommit_some_fields h).2.2.2.1⟩) s.rows]
    apply List.filterMap_congr
    intro x hx
    have hxrows := (mem_chainOf.mp hx).1
    rcases hcases x hx with hxP | hxT | hxS
    · rw [if_pos ((hmemP x hxrows).mpr hxP), if_pos (hPgt x hxP)]
    · subst hxT
      rw [if_neg (fun hm => htgtP ((hmemP x hxrows).mp hm)),
        if_pos ((hmemT x hxrows).mpr rfl),
        if_neg (lt_irrefl x.last_modified), if_pos hv]
    · have hnP : ¬ x.id ∈ P.map (fun r => r.id) :=
        fun hm => hPS x ((hmemP x hxrows).mp hm) hxS
      have hnT : ¬ x.id ∈ [tgt.id] :=
        fun hm => htgtS (((hmemT x hxrows).mp hm) ▸ hxS)
      have hnlt : ¬ tgt.last_modified < x.last_modified := by
        have := hSlt x hxS
        omega
      rw [if_neg hnP, if_neg hnT, if_neg hnlt, if_neg (hS x hxS)]
      by_cases hl : x.is_latest = true
      · rw [if_pos ((hmemD x hxrows).mpr ⟨hxS, hl⟩)]
      · rw [if_neg (fun hm => hl ((hmemD x hxrows).mp hm).2)]
        have hfalse : x.is_latest = false := Bool.not_eq_true _ ▸ hl
        rw [congrArg some (set_latest_eq_self hfalse)]
  · -- other chains untouched
    intro b' k' hne
    rw [hrows]
    unfold rbCommit
    rw [chainOf_filterMap b' k' _
      (fun r r' h => ⟨(rbCommit_some_fields h).2.2.1, (rbCommit_some_fields h).2.2.2.1⟩)
      s.rows]
    have hcong : ∀ x ∈ chainOf b' k' s.rows,
        (if x.id ∈ P.map (fun r => r.id) then none
         else if x.id ∈ [tgt.id] then some { x with is_latest := true }
         else if x.id ∈ (S.filter (fun r => r.is_latest)).map (fun r => r.id) then
           some { x with is_latest := false }
         else some x) = some x := by
      intro x hxc
      have hxc' := mem_chainOf.mp hxc
      have hnotbk : x ∉ chainOf b k s.rows := by
        intro hxbk
        have h' := mem_chainOf.mp hxbk
        exact hne ⟨hxc'.2.1 ▸ h'.2.1, hxc'.2.2 ▸ h'.2.2⟩
      rw [if_neg, if_neg, if_neg]
      · intro hm
        exact hnotbk (hSchain x ((hmemD x hxc'.1).mp hm).1)
      · intro hm
        exact hnotbk (((hmemT x hxc'.1).mp hm) ▸ htc)
      · intro hm
        exact hnotbk (hPchain x ((hmemP x hxc'.1).mp hm))
    rw [List.filterMap_congr hcong, List.filterMap_some]
  · -- blobs: exactly the strictly-newer rows' files are removed
    rw [hblobs, foldl_removeBlob]
    apply List.filter_congr
    intro p _
    rw [decide_eq_decide]
    constructor
    · intro hn hm
      apply hn
      rw [List.mem_filterMap] at hm ⊢
      obtain ⟨x, hx, hxe⟩ := hm
      have hxP : x ∈ P := by
        have hxf := List.mem_filter.mp hx
        have hlt : tgt.last_modified < x.last_modified := by
          have := hxf.2
          simpa using this
        rcases hcases x hxf.1 with h | rfl | h
        · exact h
        · omega
        · have := hSlt x h
          omega
      exact ⟨x, hxP, hxe⟩
    · intro hn hm
      apply hn
      rw [List.mem_filterMap] at hm ⊢
      obtain ⟨x, hx, hxe⟩ := hm
      refine ⟨x, List.mem_filter.mpr ⟨hPchain x hx, by simpa using hPgt x hx⟩, hxe⟩
  · -- ids and version ids stay pairwise distinct
    rw [hrows]
    unfold DistinctRows rbCommit at *
    rw [List.pairwise_filterMap]
    refine hdis.imp ?_
    intro a c hac
    intro a' ha' c' hc'
    have ha2 := rbCommit_some_fields ha'
    have hc2 := rbCommit_some_fields hc'
    exact ⟨ha2.1 ▸ hc2.1 ▸ hac.1, ha2.2.1 ▸ hc2.2.1 ▸ hac.2⟩
  · -- every surviving row keeps the id and version id of a stored row
    rw [hrows]
    intro x hx
    unfold rbCommit at hx
    rw [List.mem_filterMap] at hx
    obtain ⟨y, hy, hye⟩ := hx
    have h2 := rbCommit_some_fields hye
    exact ⟨y, hy, h2.1, h2.2.1⟩

/-- C4: for every chain containing the target version (uniquely, as row
tgt), Rollback destroys exactly the rows strictly newer than the target
(row removed and blob deleted), promotes the target to current, forces
every older row to not-current, and leaves every other chain and every
other blob untouched; afterwards the chain consists of the target and the
strictly older rows, with the target current. -/
theorem C4_rollback_target_present (b k : String) (vid : Nat) (s : Store)
    (tgt : ObjectVersion)
    (htc : tgt ∈ chainOf b k s.rows) (hv : tgt.version_id = vid)
    (hdis : DistinctRows s.rows)
    (hLM : (chainOf b k s.rows).Pairwise
      (fun a c => a.last_modified ≠ c.last_modified)) :
    (ui_rollback b k vid s).1 = .ok () ∧
    chainOf b k (ui_rollback b k vid s).2.rows =
      (chainOf b k s.rows).filterMap (fun x =>
        if tgt.last_modified < x.last_modified then none
        else if x.version_id = vid then some { x with is_latest := true }
        else some { x with is_latest := false }) ∧
    (∀ b' k', ¬(b' = b ∧ k' = k) →
      chainOf b' k' (ui_rollback b k vid s).2.rows = chainOf b' k' s.rows) ∧
    (ui_rollback b k vid s).2.blobs =
      s.blobs.filter (fun p => decide (¬ p.1 ∈
        ((chainOf b k s.rows).filter
          (fun x => decide (tgt.last_modified < x.last_modified))).filterMap
          (fun x => x.storage_path))) := by
  obtain ⟨h1, h2, h3, h4, _, _⟩ := rollback_found_char b k vid s tgt htc hv hdis hLM
  exact ⟨h1, h2, h3, h4⟩

def rC4a : ObjectVersion :=
  { id := 0, bucket_name := "b", key := "k", version_id := 0, is_latest := false,
    is_delete_marker := false, size := 1, etag := "\"a\"", last_modified := 0,
    content_type := "t", storage_path := some ⟨"b", "h", 0⟩ }

def rC4b : ObjectVersion :=
  { id := 1, bucket_name := "b", key := "k", version_id := 1, is_latest := true,
    is_delete_marker := false, size := 1, etag := "\"b\"", last_modified := 1,
    content_type := "t", storage_path := some ⟨"b", "h", 1⟩ }

def sC4 : Store :=
  { buckets := ["b"], rows := [rC4a, rC4b],
    blobs := [(⟨"b", "h", 0⟩, [65]), (⟨"b", "h", 1⟩, [66])], counter := 2 }

theorem C4_rollback_target_present_witness :
    (ui_rollback "b" "k" 0 sC4).1 = .ok () :=
  (C4_rollback_target_present "b" "k" 0 sC4 rC4a (by decide) (by decide) (by decide)
    (by decide)).1

/-! ## Claim C2: the single-current-row invariant over all op sequences -/

theorem mem_demoteOldLatest {b k : String} {rows : List ObjectVersion} :
    ∀ r ∈ demoteOldLatest b k rows, ∃ x ∈ rows,
      r.id = x.id ∧ r.version_id = x.version_id ∧ r.last_modified = x.last_modified := by
  intro r hr
  unfold demoteOldLatest at hr
  cases hf : rows.find? (latestQ b k) with
  | none =>
    rw [hf] at hr
    exact ⟨r, hr, rfl, rfl, rfl⟩
  | some old =>
    rw [hf] at hr
    unfold demoteById at hr
    obtain ⟨x, hx, hxe⟩ := List.mem_map.mp hr
    exact ⟨x, hx, by rw [← hxe]; simp, by rw [← hxe]; simp, by rw [← hxe]; simp⟩

theorem mem_promoteById {i : Nat} {rows : List ObjectVersion} :
    ∀ r ∈ promoteById i rows, ∃ x ∈ rows,
      r.id = x.id ∧ r.version_id = x.version_id ∧ r.last_modified = x.last_modified := by
  intro r hr
  unfold promoteById at hr
  obtain ⟨x, hx, hxe⟩ := List.mem_map.mp hr
  exact ⟨x, hx, by rw [← hxe]; simp, by rw [← hxe]; simp, by rw [← hxe]; simp⟩

theorem distinctLM_map_setIf (rows : List ObjectVersion) (f : ObjectVersion → ObjectVersion)
    (hf : ∀ r, (f r).last_modified = r.last_modified)
    (h : DistinctLM rows) : DistinctLM (rows.map f) := by
  unfold DistinctLM
  rw [List.pairwise_map]
  refine h.imp ?_
  intro a b hab
  rw [hf a, hf b]
  exact hab

theorem distinctLM_demoteOldLatest (b k : String) (rows : List ObjectVersion)
    (h : DistinctLM rows) : DistinctLM (demoteOldLatest b k rows) := by
  unfold demoteOldLatest
  cases rows.find? (latestQ b k) with
  | none => exact h
  | some old => exact distinctLM_map_setIf rows _ (fun r => by simp) h

theorem distinct_demoteOldLatest (b k : String) (rows : List ObjectVersion)
    (h : DistinctRows rows) : DistinctRows (demoteOldLatest b k rows) := by
  unfold demoteOldLatest
  cases rows.find? (latestQ b k) with
  | none => exact h
  | some old => exact distinct_demoteById _ _ h

theorem countP_filterMap' {α β : Type} (p : β → Bool) (f : α → Option β) (l : List α) :
    (l.filterMap f).countP p =
      l.countP (fun a => match f a with | some bb => p bb | none => false) := by
  induction l with
  | nil => rfl
  | cons a t ih =>
    rw [List.filterMap_cons]
    cases hfa : f a with
    | none =>
      rw [List.countP_cons, hfa, ih]
      simp
    | some bb =>
      rw [List.countP_cons, List.countP_cons, hfa, ih]

theorem fresh_rbCommit {c : Nat} {T : RbScan} {rows : List ObjectVersion}
    (h1 : FreshRows c rows) (h2 : FreshLM c rows) :
    FreshRows c (rbCommit T rows) ∧ FreshLM c (rbCommit T rows) := by
  constructor
  · intro r hr
    unfold rbCommit at hr
    obtain ⟨y, hy, hye⟩ := List.mem_filterMap.mp hr
    have hf := rbCommit_some_fields hye
    rw [hf.1, hf.2.1]
    exact h1 y hy
  · intro r hr
    unfold rbCommit at hr
    obtain ⟨y, hy, hye⟩ := List.mem_filterMap.mp hr
    have hf := rbCommit_some_fields hye
    rw [hf.2.2.2.2]
    exact h2 y hy

theorem distinct_rbCommit {T : RbScan} {rows : List ObjectVersion}
    (h : DistinctRows rows) : DistinctRows (rbCommit T rows) := by
  unfold DistinctRows rbCommit at *
  rw [List.pairwise_filterMap]
  refine h.imp ?_
  intro a c hac a' ha' c' hc'
  have ha2 := rbCommit_some_fields ha'
  have hc2 := rbCommit_some_fields hc'
  exact ⟨ha2.1 ▸ hc2.1 ▸ hac.1, ha2.2.1 ▸ hc2.2.1 ▸ hac.2⟩

theorem distinctLM_rbCommit {T : RbScan} {rows : List ObjectVersion}
    (h : DistinctLM rows) : DistinctLM (rbCommit T rows) := by
  unfold DistinctLM rbCommit at *
  rw [List.pairwise_filterMap]
  refine h.imp ?_
  intro a c hac a' ha' c' hc'
  have ha2 := rbCommit_some_fields ha'
  have hc2 := rbCommit_some_fields hc'
  rw [ha2.2.2.2.2, hc2.2.2.2.2]
  exact hac

/-- The shared demote-then-append-current transition of put_object and the
delete-marker branch preserves the invariant. -/
theorem storeInv_appendFresh (b k : String) (s : Store) (row : ObjectVersion)
    (h : StoreInv s)
    (hid : row.id = s.counter) (hvid : row.version_id = s.counter)
    (hlm : row.last_modified = s.counter)
    (hbk : row.bucket_name = b ∧ row.key = k) (hl : row.is_latest = true)
    (bks : List String) (bl : BlobStore) :
    StoreInv { buckets := bks, rows := demoteOldLatest b k s.rows ++ [row],
               blobs := bl, counter := s.counter + 1 } := by
  obtain ⟨hfr, hflm, hdr, hdlm, hci⟩ := h
  have hmemD := @mem_demoteOldLatest b k s.rows
  refine ⟨?_, ?_, ?_, ?_, ?_⟩
  · intro r hr
    show r.id < s.counter + 1 ∧ r.version_id < s.counter + 1
    rcases List.mem_append.mp hr with hr | hr
    · obtain ⟨x, hx, he1, he2, _⟩ := hmemD r hr
      have := hfr x hx
      omega
    · rcases List.mem_cons.mp hr with rfl | hr
      · omega
      · cases hr
  · intro r hr
    show r.last_modified < s.counter + 1
    rcases List.mem_append.mp hr with hr | hr
    · obtain ⟨x, hx, _, _, he3⟩ := hmemD r hr
      have := hflm x hx
      omega
    · rcases List.mem_cons.mp hr with rfl | hr
      · omega
      · cases hr
  · rw [DistinctRows, List.pairwise_append]
    refine ⟨distinct_demoteOldLatest b k s.rows hdr, List.pairwise_singleton _ _, ?_⟩
    intro a ha r hr
    rcases List.mem_cons.mp hr with rfl | hr
    · obtain ⟨x, hx, he1, he2, _⟩ := hmemD a ha
      have := hfr x hx
      constructor <;> omega
    · cases hr
  · rw [DistinctLM, List.pairwise_append]
    refine ⟨distinctLM_demoteOldLatest b k s.rows hdlm, List.pairwise_singleton _ _, ?_⟩
    intro a ha r hr
    rcases List.mem_cons.mp hr with rfl | hr
    · obtain ⟨x, hx, _, _, he3⟩ := hmemD a ha
      have := hflm x hx
      omega
    · cases hr
  · intro b' k'
    by_cases hbk' : b' = b ∧ k' = k
    · obtain ⟨rfl, rfl⟩ := hbk'
      right
      rw [chainOf_append]
      have hrow1 : chainOf b' k' [row] = [row] := by
        simp [chainOf, inChainB, hbk.1, hbk.2]
      rw [hrow1]
      unfold latestCount
      rw [List.countP_append]
      have hle : latestCount (chainOf b' k' s.rows) ≤ 1 := by
        rcases hci b' k' with hc | hc
        · rw [hc]
          simp [latestCount]
        · omega
      have h0 := latestCount_demoteOldLatest b' k' s.rows hdr hle
      unfold latestCount at h0
      rw [h0]
      simp [hl]
    · rw [chainOf_append]
      have hrow1 : chainOf b' k' [row] = [] := by
        simp only [chainOf, List.filter, inChainB]
        rw [decide_eq_false]
        intro hc
        exact hbk' ⟨hc.1 ▸ hbk.1 ▸ rfl, hc.2 ▸ hbk.2 ▸ rfl⟩
      rw [hrow1, List.append_nil,
        chainOf_demoteOldLatest_other b k b' k' s.rows hbk' hdr]
      exact hci b' k'

theorem storeInv_create (b : String) (s : Store) (h : StoreInv s) :
    StoreInv (create_bucket b s).2 := by
  unfold create_bucket
  split
  · exact h
  · exact h

theorem storeInv_put (b k : String) (c : List Nat) (ct : String) (s : Store)
    (h : StoreInv s) : StoreInv (put_object b k c ct s).2 := by
  unfold put_object
  split
  · exact storeInv_appendFresh b k s _ h rfl rfl rfl ⟨rfl, rfl⟩ rfl _ _
  · exact h

theorem storeInv_deleteMarker (b k : String) (s : Store)
    (h : StoreInv s) : StoreInv (delete_object b k none s).2 := by
  by_cases hb : b ∈ s.buckets
  · have hred : (delete_object b k none s).2 =
        { buckets := s.buckets, rows := demoteOldLatest b k s.rows ++
            [{ id := s.counter, bucket_name := b, key := k, version_id := s.counter,
               is_latest := true, is_delete_marker := true, size := 0, etag := "",
               last_modified := s.counter, content_type := "application/octet-stream",
               storage_path := none }], blobs := s.blobs, counter := s.counter + 1 } := by
      simp only [delete_object, if_pos hb]
    rw [hred]
    exact storeInv_appendFresh b k s _ h rfl rfl rfl ⟨rfl, rfl⟩ rfl _ _
  · have hred : (delete_object b k none s).2 = s := by
      simp only [delete_object, if_neg hb]
    rw [hred]
    exact h

theorem delete_object_of_versionQ_none {b k : String} {vid : Nat} {s : Store}
    (hf : s.rows.find? (versionQ b k vid) = none) :
    delete_object b k (some vid) s = (.ok none, s) := by
  unfold delete_object
  simp only [hf]

theorem storeInv_deleteVersion (b k : String) (vid : Nat) (s : Store)
    (h : StoreInv s) : StoreInv (delete_object b k (some vid) s).2 := by
  obtain ⟨hfr, hflm, hdr, hdlm, hci⟩ := h
  cases hf : s.rows.find? (versionQ b k vid) with
  | none =>
    rw [delete_object_of_versionQ_none hf]
    exact ⟨hfr, hflm, hdr, hdlm, hci⟩
  | some obj =>
    have hout := delete_object_of_versionQ_some hf
    have hobjmem := List.mem_of_find?_eq_some hf
    have hobjq := versionQ_iff.mp (List.find?_some hf)
    have hobjchain : obj ∈ chainOf b k s.rows :=
      mem_chainOf.mpr ⟨hobjmem, hobjq.1, hobjq.2.1⟩
    have hrowsEq : (delete_object b k (some vid) s).2.rows =
        (if obj.is_latest = true then
          match (sortLMDesc (s.rows.filter (notVersionQ b k vid))).head? with
          | some nxt => promoteById nxt.id s.rows
          | none => s.rows
        else s.rows).filter (fun x => decide (¬ x.id = obj.id)) := by
      rw [hout]
    have hcounterEq : (delete_object b k (some vid) s).2.counter = s.counter := by
      rw [hout]
    have hvid_inj : ∀ x ∈ chainOf b k s.rows, x.version_id = vid → x = obj := by
      intro x hx hxv
      exact distinct_vid_inj hdr (mem_chainOf.mp hx).1 hobjmem (by rw [hxv, hobjq.2.2])
    have hshape : (obj.is_latest = false ∧
          (delete_object b k (some vid) s).2.rows =
            s.rows.filter (fun x => decide (¬ x.id = obj.id))) ∨
        (obj.is_latest = true ∧ s.rows.filter (notVersionQ b k vid) = [] ∧
          (delete_object b k (some vid) s).2.rows =
            s.rows.filter (fun x => decide (¬ x.id = obj.id))) ∨
        (obj.is_latest = true ∧ ∃ nxt, nxt ∈ chainOf b k s.rows ∧
          ¬ nxt.version_id = vid ∧
          (delete_object b k (some vid) s).2.rows =
            (promoteById nxt.id s.rows).filter (fun x => decide (¬ x.id = obj.id))) := by
      rw [hrowsEq]
      by_cases hlat : obj.is_latest = true
      · rw [if_pos hlat]
        cases hhd : (sortLMDesc (s.rows.filter (notVersionQ b k vid))).head? with
        | none =>
          right; left
          exact ⟨hlat, sortLMDesc_head_none hhd, rfl⟩
        | some nxt =>
          right; right
          have hmax := sortLMDesc_head_max _ hhd
          have hm2 := List.mem_filter.mp hmax.1
          have hq := notVersionQ_iff.mp hm2.2
          exact ⟨hlat, nxt, mem_chainOf.mpr ⟨hm2.1, hq.1, hq.2.1⟩, hq.2.2, rfl⟩
      · rw [if_neg hlat]
        exact Or.inl ⟨Bool.not_eq_true _ ▸ hlat, rfl⟩
    -- every outcome is a filter of s.rows or of a field-preserving map of it
    have hfrom : ∀ r ∈ (delete_object b k (some vid) s).2.rows, ∃ x ∈ s.rows,
        r.id = x.id ∧ r.version_id = x.version_id ∧ r.last_modified = x.last_modified := by
      intro r hr
      rcases hshape with ⟨_, hsh⟩ | ⟨_, _, hsh⟩ | ⟨_, nxt, _, _, hsh⟩ <;> rw [hsh] at hr
      · exact ⟨r, (List.mem_filter.mp hr).1, rfl, rfl, rfl⟩
      · exact ⟨r, (List.mem_filter.mp hr).1, rfl, rfl, rfl⟩
      · exact mem_promoteById r (List.mem_filter.mp hr).1
    refine ⟨?_, ?_, ?_, ?_, ?_⟩
    · intro r hr
      rw [hcounterEq]
      obtain ⟨x, hx, h1, h2, _⟩ := hfrom r hr
      rw [h1, h2]
      exact hfr x hx
    · intro r hr
      rw [hcounterEq]
      obtain ⟨x, hx, _, _, h3⟩ := hfrom r hr
      rw [h3]
      exact hflm x hx
    · rcases hshape with ⟨_, hsh⟩ | ⟨_, _, hsh⟩ | ⟨_, nxt, _, _, hsh⟩ <;> rw [hsh]
      · exact DistinctRows.sublist (List.filter_sublist _) hdr
      · exact DistinctRows.sublist (List.filter_sublist _) hdr
      · exact DistinctRows.sublist (List.filter_sublist _) (distinct_promoteById _ _ hdr)
    · rcases hshape with ⟨_, hsh⟩ | ⟨_, _, hsh⟩ | ⟨_, nxt, _, _, hsh⟩ <;> rw [hsh]
      · exact List.Pairwise.sublist (List.filter_sublist _) hdlm
      · exact List.Pairwise.sublist (List.filter_sublist _) hdlm
      · exact List.Pairwise.sublist (List.filter_sublist _)
          (distinctLM_map_setIf _ _ (fun r => by simp) hdlm)
    · -- the chain invariant
      intro b' k'
      by_cases hbk' : b' = b ∧ k' = k
      · obtain ⟨rfl, rfl⟩ := hbk'
        have hchain1 : latestCount (chainOf b' k' s.rows) = 1 := by
          rcases hci b' k' with hc | hc
          · rw [hc] at hobjchain
            cases hobjchain
          · exact hc
        have hle1 : latestCount (chainOf b' k' s.rows) ≤ 1 := by omega
        rcases hshape with ⟨hlat, hsh⟩ | ⟨hlat, hempty, hsh⟩ | ⟨hlat, nxt, hnxtc, hnxtv, hsh⟩
        · -- obj was not current: the unique current row survives
          right
          rw [hsh, chainOf_filter]
          obtain ⟨u, hu, hul⟩ := List.countP_pos_iff.mp
            (show 0 < (chainOf b' k' s.rows).countP (fun r => r.is_latest) by
              unfold latestCount at hchain1
              omega)
          have hune : u ≠ obj := by
            intro he
            rw [he, hlat] at hul
            cases hul
          have huid : ¬ u.id = obj.id :=
            fun hh => hune (distinct_id_inj hdr (mem_chainOf.mp hu).1 hobjmem hh)
          unfold latestCount
          apply countP_eq_one_of (List.Nodup.filter _ (distinct_chainOf hdr).nodup)
            (List.mem_filter.mpr ⟨hu, by simpa using huid⟩) hul
          intro x hx hpx
          exact latest_unique hle1 (List.mem_filter.mp hx).1 hu hpx hul
        · -- obj was the only row of the chain: the key ceases to exist
          left
          rw [hsh, chainOf_filter, List.filter_eq_nil_iff]
          intro x hx
          have hxc := mem_chainOf.mp hx
          have hnv := List.filter_eq_nil_iff.mp hempty x hxc.1
          rw [notVersionQ_iff] at hnv
          push_neg at hnv
          have hxe : x = obj := hvid_inj x hx (hnv hxc.2.1 hxc.2.2)
          simp [hxe]
        · -- obj was current and rows remain: the promoted row is the one current
          right
          rw [hsh, chainOf_filter, chainOf_promoteById]
          unfold promoteById
          rw [List.filter_map]
          have hps : ((fun x : ObjectVersion => decide (¬ x.id = obj.id)) ∘
              (fun x : ObjectVersion =>
                if x.id = nxt.id then { x with is_latest := true } else x)) =
              (fun x : ObjectVersion => decide (¬ x.id = obj.id)) := by
            funext x
            simp
          rw [hps]
          unfold latestCount
          rw [List.countP_map]
          have hnxtobj : nxt ≠ obj := by
            intro he
            exact hnxtv (by rw [he]; exact hobjq.2.2)
          have hnxtid : ¬ nxt.id = obj.id :=
            fun hh => hnxtobj (distinct_id_inj hdr (mem_chainOf.mp hnxtc).1 hobjmem hh)
          apply countP_eq_one_of (List.Nodup.filter _ (distinct_chainOf hdr).nodup)
            (List.mem_filter.mpr ⟨hnxtc, by simpa using hnxtid⟩)
          · show ((fun r : ObjectVersion => r.is_latest) ∘
              (fun x : ObjectVersion =>
                if x.id = nxt.id then { x with is_latest := true } else x)) nxt = true
            rw [Function.comp_apply, if_pos rfl]
          · intro x hx hpx
            by_cases hxid : x.id = nxt.id
            · exact distinct_id_inj hdr (mem_chainOf.mp (List.mem_filter.mp hx).1).1
                (mem_chainOf.mp hnxtc).1 hxid
            · exfalso
              simp only [Function.comp_apply, if_neg hxid] at hpx
              have hxobj : x = obj :=
                latest_unique hle1 (List.mem_filter.mp hx).1 hobjchain hpx hlat
              have hq := (List.mem_filter.mp hx).2
              rw [hxobj] at hq
              simp at hq
      · -- other chains untouched
        have hgen : ∀ L : List ObjectVersion,
            (L = s.rows ∨ ∃ nxt, nxt ∈ chainOf b k s.rows ∧
              L = promoteById nxt.id s.rows) →
            chainOf b' k' (L.filter (fun x => decide (¬ x.id = obj.id))) =
              chainOf b' k' s.rows := by
          intro L h1
          have hbase : chainOf b' k' L = chainOf b' k' s.rows := by
            rcases h1 with rfl | ⟨nxt, hnxt, rfl⟩
            · rfl
            · rw [chainOf_promoteById]
              unfold promoteById
              have hcong : ∀ x ∈ chainOf b' k' s.rows,
                  (if x.id = nxt.id then { x with is_latest := true } else x) = id x := by
                intro x hxc
                have hxc' := mem_chainOf.mp hxc
                have hnxt' := mem_chainOf.mp hnxt
                rw [if_neg, id]
                intro hid
                have hxe : x = nxt := distinct_id_inj hdr hxc'.1 hnxt'.1 hid
                exact hbk' ⟨hxc'.2.1 ▸ hxe ▸ hnxt'.2.1, hxc'.2.2 ▸ hxe ▸ hnxt'.2.2⟩
              rw [List.map_congr_left hcong, List.map_id]
          rw [chainOf_filter, hbase, List.filter_eq_self.mpr]
          intro x hxc
          have hxc' := mem_chainOf.mp hxc
          simp only [decide_eq_true_eq]
          intro hid
          have hxe : x = obj := distinct_id_inj hdr hxc'.1 hobjmem hid
          exact hbk' ⟨hxc'.2.1 ▸ hxe ▸ hobjq.1, hxc'.2.2 ▸ hxe ▸ hobjq.2.1⟩
        rcases hshape with ⟨_, hsh⟩ | ⟨_, _, hsh⟩ | ⟨_, nxt, hnxtc, _, hsh⟩ <;> rw [hsh]
        · rw [hgen s.rows (Or.inl rfl)]
          exact hci b' k'
        · rw [hgen s.rows (Or.inl rfl)]
          exact hci b' k'
        · rw [hgen _ (Or.inr ⟨nxt, hnxtc, rfl⟩)]
          exact hci b' k'

theorem ui_rollback_not_found_eq {b k : String} {vid : Nat} {s : Store}
    (hfnd : (rbScan vid (sortLMDesc (chainOf b k s.rows)) false).found = false) :
    ui_rollback b k vid s =
      (.error .versionNotFound,
       { s with blobs := (rbScan vid (sortLMDesc (chainOf b k s.rows))
           false).destroyedLocs.foldl removeBlob s.blobs }) := by
  simp only [ui_rollback, hfnd, Bool.false_eq_true, if_false]

theorem storeInv_rollback (b k : String) (vid : Nat) (s : Store)
    (h : StoreInv s) : StoreInv (ui_rollback b k vid s).2 := by
  cases hfnd : (rbScan vid (sortLMDesc (chainOf b k s.rows)) false).found with
  | false =>
    rw [ui_rollback_not_found_eq hfnd]
    exact ⟨h.1, h.2.1, h.2.2.1, h.2.2.2.1, h.2.2.2.2⟩
  | true =>
    obtain ⟨hfr, hflm, hdr, hdlm, hci⟩ := h
    have hex : ∃ tgt ∈ chainOf b k s.rows, tgt.version_id = vid := by
      by_contra hne
      push_neg at hne
      have hall : ∀ x ∈ sortLMDesc (chainOf b k s.rows), ¬ x.version_id = vid := by
        intro x hx
        exact hne x ((List.perm_insertionSort lmGE _).mem_iff.mp hx)
      rw [rbScan_not_found vid _ hall] at hfnd
      cases hfnd
    obtain ⟨tgt, htc, hv⟩ := hex
    have hLM : (chainOf b k s.rows).Pairwise
        (fun a c => a.last_modified ≠ c.last_modified) :=
      List.Pairwise.sublist (List.filter_sublist _) hdlm
    obtain ⟨_, hchain, hother, _, _, _⟩ :=
      rollback_found_char b k vid s tgt htc hv hdr hLM
    have hrowsEq : (ui_rollback b k vid s).2.rows =
        rbCommit (rbScan vid (sortLMDesc (chainOf b k s.rows)) false) s.rows := by
      simp only [ui_rollback, hfnd, if_true]
    have hcounterEq : (ui_rollback b k vid s).2.counter = s.counter := by
      simp only [ui_rollback]
      split <;> rfl
    refine ⟨?_, ?_, ?_, ?_, ?_⟩
    · intro r hr
      rw [hcounterEq]
      rw [hrowsEq] at hr
      exact (fresh_rbCommit hfr hflm).1 r hr
    · intro r hr
      rw [hcounterEq]
      rw [hrowsEq] at hr
      exact (fresh_rbCommit hfr hflm).2 r hr
    · rw [hrowsEq]
      exact distinct_rbCommit hdr
    · rw [hrowsEq]
      exact distinctLM_rbCommit hdlm
    · intro b' k'
      by_cases hbk' : b' = b ∧ k' = k
      · obtain ⟨rfl, rfl⟩ := hbk'
        right
        rw [hchain]
        unfold latestCount
        rw [countP_filterMap']
        apply countP_eq_one_of (distinct_chainOf hdr).nodup htc
        · simp [hv]
        · intro x hx hpx
          by_cases h1 : tgt.last_modified < x.last_modified
          · simp [h1] at hpx
          · by_cases h2 : x.version_id = vid
            · exact distinct_vid_inj hdr (mem_chainOf.mp hx).1 (mem_chainOf.mp htc).1
                (by rw [h2, hv])
            · simp [h1, h2] at hpx
      · rw [hother b' k' hbk']
        exact hci b' k'

theorem storeInv_applyOp (s : Store) (o : Op) (h : StoreInv s) :
    StoreInv (applyOp s o) := by
  cases o with
  | createBucket b => exact storeInv_create b s h
  | put b k c ct => exact storeInv_put b k c ct s h
  | deleteVersion b k vid => exact storeInv_deleteVersion b k vid s h
  | deleteMarker b k => exact storeInv_deleteMarker b k s h
  | rollback b k vid => exact storeInv_rollback b k vid s h

theorem storeInv_initStore : StoreInv initStore := by
  refine ⟨?_, ?_, ?_, ?_, ?_⟩
  · intro r hr
    cases hr
  · intro r hr
    cases hr
  · exact List.Pairwise.nil
  · exact List.Pairwise.nil
  · intro b k
    exact Or.inl rfl

theorem storeInv_runOps (ops : List Op) : StoreInv (runOps ops) := by
  have hgen : ∀ (l : List Op) (s : Store), StoreInv s → StoreInv (l.foldl applyOp s) := by
    intro l
    induction l with
    | nil => intro s hs; exact hs
    | cons o t ih => intro s hs; exact ih _ (storeInv_applyOp s o hs)
  exact hgen ops initStore storeInv_initStore

/-- C2: for every sequence of bucket-creation, Put, Delete (with and
without version_id) and Rollback operations applied sequentially from the
empty store, every chain that has at least one row has exactly one row
with is_latest = true after each operation completes. -/
theorem C2_single_current_invariant (ops : List Op) (b k : String)
    (h : chainOf b k (runOps ops).rows ≠ []) :
    latestCount (chainOf b k (runOps ops).rows) = 1 := by
  rcases (storeInv_runOps ops).2.2.2.2 b k with hc | hc
  · exact absurd hc h
  · exact hc

theorem C2_single_current_invariant_witness :
    chainOf "b" "k" (runOps [.createBucket "b", .deleteMarker "b" "k"]).rows ≠ [] ∧
    latestCount (chainOf "b" "k"
      (runOps [.createBucket "b", .deleteMarker "b" "k"]).rows) = 1 :=
  ⟨by decide, C2_single_current_invariant [.createBucket "b", .deleteMarker "b" "k"]
    "b" "k" (by decide)⟩
